import Mathlib

/-!
Verification of the dead-link crawler (src/main.py).

The development shallowly embeds the algorithmic core of the program:

* `normalize_url` together with the pieces of CPython 3.11's
  `urllib.parse` that it calls (`urlsplit`, `urlparse`, `urlunparse`,
  `_splitparams`, `_splitnetloc`, `_check_bracketed_host` and the
  `ipaddress` textual validation the latter performs).  URLs are
  modelled as `List Char`; Python `str.lower` is modelled on the ASCII
  range (`_checknetloc`, a no-op for ASCII netlocs, is elided).
* `check_link` as a pure function of the HTTP response.
* the lock-protected claim-then-schedule logic of
  `process_page_and_links` as an atomic event system.
* `recursive_download` / `test_and_download_sitemaps` as a fuel-indexed
  worklist recursion over a finite web of XML documents.

Exceptions (`ValueError` from `urlparse`) are modelled by `Option`:
`none` is a raised exception.
-/

abbrev Chars := List Char

/-- Python `str.lower` on one ASCII character (table of the 26 upper-case
letters; other characters are unchanged). -/
def pyLowerChar (c : Char) : Char :=
  match c with
  | 'A' => 'a' | 'B' => 'b' | 'C' => 'c' | 'D' => 'd' | 'E' => 'e'
  | 'F' => 'f' | 'G' => 'g' | 'H' => 'h' | 'I' => 'i' | 'J' => 'j'
  | 'K' => 'k' | 'L' => 'l' | 'M' => 'm' | 'N' => 'n' | 'O' => 'o'
  | 'P' => 'p' | 'Q' => 'q' | 'R' => 'r' | 'S' => 's' | 'T' => 't'
  | 'U' => 'u' | 'V' => 'v' | 'W' => 'w' | 'X' => 'x' | 'Y' => 'y'
  | 'Z' => 'z'
  | c => c

/-- Python `str.lower` on an ASCII string. -/
def pyLower (l : Chars) : Chars := l.map pyLowerChar

/-- Splitting at the first occurrence of a character, as Python
`s.split(ch, 1)`, `s.partition(ch)` and `s.find(ch)`: `none` when the
character is absent. -/
def splitAtFirst (ch : Char) : Chars → Option (Chars × Chars)
  | [] => none
  | c :: cs =>
    if c = ch then some ([], cs)
    else
      match splitAtFirst ch cs with
      | none => none
      | some (a, b) => some (c :: a, b)

/-- Python `s.split(ch)` (full split, no limit). -/
def splitOnChar (ch : Char) : Chars → List Chars
  | [] => [[]]
  | c :: cs =>
    if c = ch then [] :: splitOnChar ch cs
    else
      match splitOnChar ch cs with
      | [] => [[c]]
      | a :: rest => (c :: a) :: rest

/-- The scan of CPython `_splitnetloc`: take characters until the first
`/`, `?` or `#`. -/
def netlocSpan : Chars → Chars × Chars
  | [] => ([], [])
  | c :: cs =>
    if c = '/' ∨ c = '?' ∨ c = '#' then ([], c :: cs)
    else
      let p := netlocSpan cs
      (c :: p.1, p.2)

/-- Python `s.rstrip('/')`. -/
def rstripSlash (l : Chars) : Chars := (l.reverse.dropWhile (· == '/')).reverse

/-- Python `s.strip()` (ASCII whitespace). -/
def pyStrip (l : Chars) : Chars :=
  ((l.dropWhile Char.isWhitespace).reverse.dropWhile Char.isWhitespace).reverse

/-- CPython 3.11 `urlsplit`'s `url.lstrip(_WHATWG_C0_CONTROL_OR_SPACE)`:
remove leading characters with code point at most 0x20. -/
def lstripControlOrSpace (l : Chars) : Chars := l.dropWhile (fun c => c.toNat ≤ 32)

/-- CPython 3.11 `urlsplit`'s removal of `_UNSAFE_URL_BYTES_TO_REMOVE`
(tab, CR, LF) everywhere in the URL. -/
def removeUnsafeBytes (l : Chars) : Chars :=
  l.filter (fun c => !(c == '\t' || c == '\r' || c == '\n'))

/-- The two preprocessing steps CPython 3.11 `urlsplit` applies to its
argument before parsing. -/
def cleanedUrl (l : Chars) : Chars := removeUnsafeBytes (lstripControlOrSpace l)

/-- Membership in CPython `urllib.parse.scheme_chars`
(ASCII letters, digits, `+`, `-`, `.`). -/
def isSchemeChar (c : Char) : Bool :=
  c.isAlpha || c.isDigit || c == '+' || c == '-' || c == '.'

/-- The scheme-recognition step of CPython 3.11 `urlsplit`: the text before
the first `:` is a scheme when it is non-empty, starts with an ASCII letter
and consists of scheme characters; the recognised scheme is lower-cased. -/
def splitScheme (url : Chars) : Chars × Chars :=
  match splitAtFirst ':' url with
  | none => ([], url)
  | some (pre, post) =>
    match pre with
    | [] => ([], url)
    | c :: _ => if c.isAlpha && pre.all isSchemeChar then (pyLower pre, post) else ([], url)

/-- CPython `urlsplit`'s "Invalid IPv6 URL" condition: a `[` without `]`
in the netloc, or conversely. -/
def bracketsMismatched (nl : Chars) : Bool :=
  decide ((('[' : Char) ∈ nl ∧ (']' : Char) ∉ nl) ∨ ((']' : Char) ∈ nl ∧ ('[' : Char) ∉ nl))

/-- ASCII hexadecimal digit (CPython `ipaddress._HEX_DIGITS`). -/
def isHexDigitChar (c : Char) : Bool :=
  if c.isDigit then true
  else if 'a' ≤ c ∧ c ≤ 'f' then true
  else if 'A' ≤ c ∧ c ≤ 'F' then true
  else false

/-- Numeric value of a decimal-digit string. -/
def natFromDigits (l : Chars) : Nat := l.foldl (fun n c => n * 10 + (c.toNat - 48)) 0

/-- CPython `ipaddress._BaseV4._parse_octet` as a validity predicate:
non-empty, decimal digits only, at most 3 characters, no leading zero
(except `0` itself), value at most 255. -/
def isValidOctet (p : Chars) : Bool :=
  if p = [] then false
  else if p.all Char.isDigit = false then false
  else if p.length > 3 then false
  else if p ≠ ['0'] ∧ p.take 1 = ['0'] then false
  else if natFromDigits p > 255 then false
  else true

/-- Validity of an IPv4 address string (CPython `IPv4Address`): no `/`,
exactly four valid octets separated by dots. -/
def isIPv4String (s : Chars) : Bool :=
  if ('/' : Char) ∈ s then false
  else if s = [] then false
  else
    let octets := splitOnChar '.' s
    octets.length == 4 && octets.all isValidOctet

/-- CPython `ipaddress._BaseV6._parse_hextet` as a validity predicate:
hex digits only, at most 4 characters, non-empty (`int('', 16)` raises). -/
def isValidHextet (p : Chars) : Bool :=
  if p.all isHexDigitChar = false then false
  else if p.length > 4 then false
  else if p = [] then false
  else true

/-- The structural part of CPython `_BaseV6._ip_int_from_string` after the
IPv4-suffix substitution: at most 9 parts, at most one empty inner part
(the `::`), endpoint emptiness only next to the `::`, at least one skipped
group, and valid hextets in the copied positions. -/
def ipv6PartsValid (parts : List Chars) : Bool :=
  if parts.length > 9 then false
  else
    match (List.range parts.length).filter
        (fun i => decide (0 < i ∧ i < parts.length - 1 ∧ parts.getD i [] = [])) with
    | [] =>
      if parts.length ≠ 8 then false
      else if parts.headD [] = [] then false
      else if parts.getLastD [] = [] then false
      else parts.all isValidHextet
    | [i] =>
      let hi := if parts.headD [] = [] then i - 1 else i
      let lo0 := parts.length - i - 1
      let lo := if parts.getLastD [] = [] then lo0 - 1 else lo0
      if parts.headD [] = [] ∧ hi ≠ 0 then false
      else if parts.getLastD [] = [] ∧ lo ≠ 0 then false
      else if hi + lo ≥ 8 then false
      else (parts.take hi).all isValidHextet && (parts.drop (parts.length - lo)).all isValidHextet
    | _ :: _ :: _ => false

/-- Validity of the IPv6 core (before the scope id), CPython
`_BaseV6._ip_int_from_string`: at least 3 colon-separated parts, an
optional dotted IPv4 tail replaced by two hextets, then the structural
check. -/
def ipv6CoreValid (addr : Chars) : Bool :=
  if addr = [] then false
  else
    let parts := splitOnChar ':' addr
    if parts.length < 3 then false
    else
      let lastPart := parts.getLastD []
      if ('.' : Char) ∈ lastPart then
        if isIPv4String lastPart then ipv6PartsValid (parts.dropLast ++ [['0'], ['0']])
        else false
      else ipv6PartsValid parts

/-- Validity of an IPv6 address string (CPython `IPv6Address`): no `/`,
optional non-empty `%scope` free of further `%`, valid core. -/
def isIPv6String (s : Chars) : Bool :=
  if ('/' : Char) ∈ s then false
  else
    match splitAtFirst '%' s with
    | none => ipv6CoreValid s
    | some (addr, scope) =>
      if scope = [] ∨ ('%' : Char) ∈ scope then false else ipv6CoreValid addr

/-- CPython's IPvFuture regular expression `\Av[a-fA-F0-9]+\..+\Z`. -/
def isIPvFuture (h : Chars) : Bool :=
  match h with
  | 'v' :: t =>
    let hx := t.takeWhile isHexDigitChar
    if hx = [] then false
    else
      match t.drop hx.length with
      | '.' :: rest => rest ≠ []
      | _ => false
  | _ => false

/-- CPython 3.11 `urllib.parse._check_bracketed_host` as a validity
predicate: `v`-prefixed hosts must match the IPvFuture pattern, IPv4
addresses may not be bracketed, anything else must be a valid IPv6
address. -/
def check_bracketed_host (h : Chars) : Bool :=
  if h.take 1 = ['v'] then isIPvFuture h
  else if isIPv4String h then false
  else isIPv6String h

/-- `netloc.partition('[')[2].partition(']')[0]` of CPython 3.11
`urlsplit`: the text between the first `[` and the following `]`. -/
def bracketedHostOf (nl : Chars) : Chars :=
  let after := match splitAtFirst '[' nl with | none => [] | some p => p.2
  match splitAtFirst ']' after with | none => after | some p => p.1

/-- The characters whose NFKC normalization contains one of the URL
delimiters `/?#@:` that CPython's `_checknetloc` scans for: the full set,
enumerated from the Unicode character database, is U+2047..U+2049
(double punctuation), U+2100 U+2101 U+2105 U+2106 (letterlike a/c, a/s,
c/o, c/u), U+2A74 (::=), U+FE13 U+FE16 U+FE55 U+FE56 U+FE5F U+FE6B
(vertical and small forms) and U+FF03 U+FF0F U+FF1A U+FF1F U+FF20
(fullwidth forms).  No other character's compatibility decomposition
contains a delimiter, and canonical composition can neither create nor
consume one (no precomposed character decomposes through a delimiter), so
on a delimiter-free string a delimiter appears in the NFKC normalization
exactly when one of these characters is present. -/
def isBadNFKCChar (c : Char) : Bool :=
  c.toNat ∈ [0x2047, 0x2048, 0x2049, 0x2100, 0x2101, 0x2105, 0x2106, 0x2a74,
    0xfe13, 0xfe16, 0xfe55, 0xfe56, 0xfe5f, 0xfe6b, 0xff03, 0xff0f, 0xff1a,
    0xff1f, 0xff20]

/-- CPython 3.11 `urllib.parse._checknetloc`: a no-op on empty or
all-ASCII netlocs; otherwise the netloc with `@`, `:`, `#`, `?` removed is
NFKC-normalized, and a `ValueError` is raised when the normalization
changed the string and put one of `/?#@:` into it.  On the netlocs
`urlsplit` produces (which never contain `/`, `?` or `#`), the stripped
string is delimiter-free, so the raise condition is exactly the presence
of a character whose NFKC form contains a delimiter (see
`isBadNFKCChar`). -/
def checknetloc_rejects (netloc : Chars) : Bool :=
  decide (netloc ≠ []) && !(netloc.all (fun c => decide (c.toNat ≤ 127))) &&
    (netloc.filter (fun c => !(c == '@' || c == ':' || c == '#' || c == '?'))).any
      isBadNFKCChar

structure SplitResult where
  scheme : Chars
  netloc : Chars
  path : Chars
  query : Chars
  fragment : Chars
deriving DecidableEq, Repr

/-- The scheme-splitting stage of `urlsplit` applied to a raw URL. -/
def schemeSplitOf (u : Chars) : Chars × Chars := splitScheme (cleanedUrl u)

/-- The netloc-splitting stage of `urlsplit`: the netloc scan runs only
when the remainder after the scheme starts with `//`. -/
def netlocSplitOf (u : Chars) : Chars × Chars :=
  let rest := (schemeSplitOf u).2
  if rest.take 2 = ['/', '/'] then netlocSpan (rest.drop 2) else ([], rest)

/-- The fragment-splitting stage of `urlsplit`: split the remainder after
the netloc at the first `#`. -/
def fragSplitOf (u : Chars) : Chars × Chars :=
  match splitAtFirst '#' (netlocSplitOf u).2 with
  | none => ((netlocSplitOf u).2, [])
  | some p => p

/-- The query-splitting stage of `urlsplit`: split the pre-fragment part
at the first `?`. -/
def querySplitOf (u : Chars) : Chars × Chars :=
  match splitAtFirst '?' (fragSplitOf u).1 with
  | none => ((fragSplitOf u).1, [])
  | some p => p

/-- CPython 3.11 `urllib.parse.urlsplit`.  `none` models a raised
`ValueError`: mismatched netloc brackets, a bracketed host that fails
`_check_bracketed_host`, or a netloc rejected by `_checknetloc`'s NFKC
validation. -/
def urlsplit (url0 : Chars) : Option SplitResult :=
  if bracketsMismatched (netlocSplitOf url0).1 then none
  else if (('[' : Char) ∈ (netlocSplitOf url0).1 ∧ (']' : Char) ∈ (netlocSplitOf url0).1) ∧
      check_bracketed_host (bracketedHostOf (netlocSplitOf url0).1) = false then none
  else if checknetloc_rejects (netlocSplitOf url0).1 then none
  else
    some ⟨(schemeSplitOf url0).1, (netlocSplitOf url0).1, (querySplitOf url0).1,
      (querySplitOf url0).2, (fragSplitOf url0).2⟩

/-- CPython `urllib.parse._splitparams`: parameters are everything after
the first `;` at or after the last `/` of the path. -/
def splitparams (path : Chars) : Chars × Chars :=
  if ('/' : Char) ∈ path then
    let pre := (path.reverse.dropWhile (· ≠ '/')).reverse
    let seg := (path.reverse.takeWhile (· ≠ '/')).reverse
    match splitAtFirst ';' seg with
    | none => (path, [])
    | some (a, b) => (pre ++ a, b)
  else
    match splitAtFirst ';' path with
    | none => (path, [])
    | some (a, b) => (a, b)

/-- CPython `urllib.parse.uses_params`. -/
def uses_params : List Chars :=
  ["", "ftp", "hdl", "prospero", "http", "imap", "https", "shttp", "rtsp",
   "rtsps", "rtspu", "sip", "sips", "mms", "sftp", "tel"].map String.data

/-- CPython `urllib.parse.uses_netloc`. -/
def uses_netloc : List Chars :=
  ["", "ftp", "http", "gopher", "nntp", "telnet", "imap", "wais", "file",
   "mms", "https", "shttp", "snews", "prospero", "rtsp", "rtsps", "rtspu",
   "rsync", "svn", "svn+ssh", "sftp", "nfs", "git", "git+ssh", "ws",
   "wss"].map String.data

structure ParseResult where
  scheme : Chars
  netloc : Chars
  path : Chars
  params : Chars
  query : Chars
  fragment : Chars
deriving DecidableEq, Repr

/-- CPython 3.11 `urllib.parse.urlparse`: split, then split parameters off
the path when the scheme uses them. -/
def urlparse (url : Chars) : Option ParseResult :=
  match urlsplit url with
  | none => none
  | some s =>
    if s.scheme ∈ uses_params ∧ (';' : Char) ∈ s.path then
      let pp := splitparams s.path
      some ⟨s.scheme, s.netloc, pp.1, pp.2, s.query, s.fragment⟩
    else some ⟨s.scheme, s.netloc, s.path, [], s.query, s.fragment⟩

/-- CPython 3.11 `urllib.parse.urlunsplit`. -/
def urlunsplit (scheme netloc path query fragment : Chars) : Chars :=
  let url := if netloc ≠ [] ∨ (scheme ≠ [] ∧ scheme ∈ uses_netloc ∧ path.take 2 ≠ ['/', '/']) then
      ('/' :: '/' :: netloc) ++ (if path ≠ [] ∧ path.take 1 ≠ ['/'] then '/' :: path else path)
    else path
  let url := if scheme ≠ [] then scheme ++ ':' :: url else url
  let url := if query ≠ [] then url ++ '?' :: query else url
  if fragment ≠ [] then url ++ '#' :: fragment else url

/-- CPython `urllib.parse.urlunparse` (`ParseResult.geturl`). -/
def urlunparse (p : ParseResult) : Chars :=
  urlunsplit p.scheme p.netloc
    (if p.params ≠ [] then p.path ++ ';' :: p.params else p.path) p.query p.fragment

/-- `normalize_url` of src/main.py: parse, blank the fragment and query,
strip trailing slashes from the path, rebuild, lower-case.  `none` is the
`ValueError` raised by `urlparse`. -/
def normalize_url (url : Chars) : Option Chars :=
  match urlparse url with
  | none => none
  | some p =>
    some (pyLower (urlunparse ⟨p.scheme, p.netloc, rstripSlash p.path, p.params, [], []⟩))

/-- Python's `in` on strings (`root_domain in dest_domain`): substring
containment. -/
def pyIn (needle hay : Chars) : Bool := decide (needle <:+: hay)

/-! ### The link validator (`check_link`, src/main.py lines 91-113) -/

/-- The outcome of the `requests.head` call in `check_link`: an HTTP
status code, or a transport exception caught by the `try`. -/
inductive HeadResult where
  | status (code : Nat)
  | transportError (msg : Chars)
deriving DecidableEq, Repr

/-- The `status` variable of `check_link`: an `int` status code or the
string `f"Error: {e}"`. -/
inductive StatusOrError where
  | code (n : Nat)
  | error (msg : Chars)
deriving DecidableEq, Repr

/-- One entry of the shared `dead_links` list. -/
structure DeadLinkRecord where
  originPage : Chars
  deadLink : Chars
  statusOrError : StatusOrError
  domain : Chars
  linkType : Chars
deriving DecidableEq, Repr

/-- `check_link(url, origin, root_domain)` of src/main.py, as a pure
function of the HEAD outcome.  The outer `Option` is exception behaviour:
`none` means the `normalize_url`/`urlparse` calls on lines 98-100 raised
(those lines sit outside the `try`, so the exception escapes and nothing
is appended).  The inner `Option` is the appended record: `none` for a
live link (`status < 400` skips), `some r` for the single record appended
under `dead_links_lock`. -/
def check_link (url origin root_domain : Chars) (resp : HeadResult) :
    Option (Option DeadLinkRecord) :=
  let status : StatusOrError :=
    match resp with
    | .status c => .code c
    | .transportError e => .error ("Error: ".data ++ e)
  match normalize_url url with
  | none => none
  | some dest =>
    match normalize_url origin with
    | none => none
    | some source =>
      match urlparse dest with
      | none => none
      | some pd =>
        let dest_domain := pd.netloc
        let is_internal :=
          if pyIn root_domain dest_domain then "Internal".data else "External".data
        match status with
        | .code n =>
          if n < 400 then some none
          else some (some ⟨source, dest, .code n, dest_domain, is_internal⟩)
        | .error m => some (some ⟨source, dest, .error m, dest_domain, is_internal⟩)

/-- The records `check_link` appends to `dead_links` (0 or 1; an escaped
exception appends nothing). -/
def recordsOf (r : Option (Option DeadLinkRecord)) : List DeadLinkRecord :=
  match r with
  | some (some rec) => [rec]
  | _ => []

/-- A dead outcome: HTTP status at least 400, or a transport error. -/
def isDeadResult : HeadResult → Bool
  | .status n => decide (400 ≤ n)
  | .transportError _ => true

/-! ### The link-discovery event system (`process_page_and_links`,
src/main.py lines 130-158)

Each event is one lock-protected claim of `visited_links_lock` together
with the `executor.submit(check_link, ...)` call that is conditional on
winning that claim:

* `pageLink link localFile` — lines 131-142: a page URL handed to
  `process_page_and_links`; the URL is normalised (line 131, an exception
  kills the task silently), non-HTTP URLs are skipped (line 132), the
  normalised URL is claimed under the lock (lines 135-138) and, when it
  has a binary-asset extension, submitted to `check_link` (lines 140-141).
* `innerLink inner origin` — lines 148-158: a link extracted from a page
  whose normalised URL is `origin`; non-HTTP inner links are skipped
  (line 149), the normalised inner URL is claimed under the lock
  (lines 152-155) and, when the claim wins, submitted (line 158).

Any concurrent execution of page tasks is an interleaving of these atomic
events, so properties over all event lists cover all schedules. -/

/-- `is_valid_http_url` of src/main.py. -/
def is_valid_http_url (url : Chars) : Bool :=
  "http://".data.isPrefixOf (pyLower url) || "https://".data.isPrefixOf (pyLower url)

/-- The binary-asset extension test of line 140:
`normalized_link.lower().endswith((".jpg", ".png", ".pdf", ".css", ".js"))`. -/
def hasAssetExtension (n : Chars) : Bool :=
  ".jpg".data.isSuffixOf (pyLower n) || ".png".data.isSuffixOf (pyLower n) ||
  ".pdf".data.isSuffixOf (pyLower n) || ".css".data.isSuffixOf (pyLower n) ||
  ".js".data.isSuffixOf (pyLower n)

/-- A link-discovery event (see the section comment). -/
inductive Discovery where
  | pageLink (link : Chars) (localFile : Chars)
  | innerLink (inner : Chars) (origin : Chars)
deriving DecidableEq, Repr

/-- The raw URL a discovery event carries. -/
def Discovery.url : Discovery → Chars
  | .pageLink link _ => link
  | .innerLink inner _ => inner

/-- The shared state mutated by the events: the `visited_links` set and
the multiset of `(url, origin)` pairs submitted to `check_link` (in
submission order). -/
structure CrawlState where
  visited_links : List Chars
  submitted : List (Chars × Chars)
deriving DecidableEq, Repr

def crawlInit : CrawlState := ⟨[], []⟩

/-- One atomic discovery event of `process_page_and_links`. -/
def process_discovery (s : CrawlState) : Discovery → CrawlState
  | .pageLink link localFile =>
    match normalize_url link with
    | none => s
    | some n =>
      if is_valid_http_url link = false then s
      else if n ∈ s.visited_links then s
      else if hasAssetExtension n then
        ⟨n :: s.visited_links, s.submitted ++ [(n, localFile)]⟩
      else ⟨n :: s.visited_links, s.submitted⟩
  | .innerLink inner origin =>
    if is_valid_http_url inner = false then s
    else
      match normalize_url inner with
      | none => s
      | some n =>
        if n ∈ s.visited_links then s
        else ⟨n :: s.visited_links, s.submitted ++ [(n, origin)]⟩

/-- A whole schedule of discovery events. -/
def run_discoveries (s : CrawlState) (ds : List Discovery) : CrawlState :=
  ds.foldl process_discovery s

/-! ### Sitemap documents and parsers (src/main.py lines 62-88) -/

/-- An XML element as seen by the two sitemap parsers: tag (in
ElementTree's `{namespace}local` form), text, children. -/
inductive Xml where
  | elem (tag : Chars) (text : Chars) (children : List Xml)

def Xml.tag : Xml → Chars
  | .elem t _ _ => t

def Xml.text : Xml → Chars
  | .elem _ t _ => t

def Xml.children : Xml → List Xml
  | .elem _ _ c => c

/-- `root.tag.split('}')[0].strip('{')`: the namespace URI extracted from
the root tag. -/
def namespaceOf (tag : Chars) : Chars :=
  let before := match splitAtFirst '}' tag with | none => tag | some p => p.1
  ((before.dropWhile (· == '{')).reverse.dropWhile (· == '{')).reverse

/-- ElementTree's `{uri}local` qualified tag for the pattern `ns:local`. -/
def qualTag (ns localName : Chars) : Chars := '{' :: ns ++ '}' :: localName

/-- `parse_sitemap_for_nested_sitemaps` of src/main.py: the stripped text
of every `<loc>` child of a `<sitemap>` child of the root, under the
dynamically discovered namespace.  When the root tag carries no `}`,
`findall('ns:sitemap', {})` raises (`ns` unresolvable), the `except`
swallows it, and the empty accumulator is returned. -/
def parse_sitemap_for_nested_sitemaps (root : Xml) : List Chars :=
  if ('}' : Char) ∈ root.tag then
    let ns := namespaceOf root.tag
    (root.children.filter (fun c => c.tag == qualTag ns "sitemap".data)).filterMap
      fun sm =>
        match sm.children.find? (fun c => c.tag == qualTag ns "loc".data) with
        | none => none
        | some loc => if loc.text = [] then none else some (pyStrip loc.text)
  else []

/-- `parse_sitemap_for_links` of src/main.py: the stripped text of every
`<loc>` child of a `<url>` child of the root. -/
def parse_sitemap_for_links (root : Xml) : List Chars :=
  if ('}' : Char) ∈ root.tag then
    let ns := namespaceOf root.tag
    (root.children.filter (fun c => c.tag == qualTag ns "url".data)).filterMap
      fun u =>
        match u.children.find? (fun c => c.tag == qualTag ns "loc".data) with
        | none => none
        | some loc => if loc.text = [] then none else some (pyStrip loc.text)
  else []

/-! ### The recursive sitemap traversal (src/main.py lines 160-186 and
294-308)

The web is a finite association list from sitemap URL to the parsed XML
document: a URL outside the list (or whose fetch fails with a non-200
status, a non-XML content type, or a transport error) looks up to `none`,
which `download_sitemap` reports as no document.

`recursive_download` is embedded as a worklist recursion: the Python
call `recursive_download(url)` followed sequentially by pending calls
`rest` is one state `url :: rest`; descending into `nested` before
returning is `nested ++ rest`.  The fuel argument only bounds the
recursion depth for Lean's termination checker; the termination theorem
for claim C8 shows enough fuel always exists. -/

structure SitemapState where
  visited_sitemaps : List Chars
  fetched : List Chars
  pageTasks : List Chars
deriving DecidableEq, Repr

abbrev Web := List (Chars × Xml)

/-- How a crawl ends: `aborted` is the uncaught `ValueError` that
`urlparse(url)` on line 165 of src/main.py (outside any `try`) raises on a
malformed sitemap URL, killing the whole crawl; `done` is normal
completion with the final shared state. -/
inductive CrawlOutcome where
  | aborted
  | done (s : SitemapState)
deriving DecidableEq, Repr

/-- `recursive_download` of src/main.py over a pending worklist:
lines 161-163 (visited check and insert before fetching), line 165
(`urlparse(url)` outside any `try`: a malformed URL aborts the crawl),
line 169 (fetch attempt), lines 173-176 (index branch: recurse into
nested sitemaps only), lines 177-183 (leaf branch: submit one page task
per `<url><loc>` entry). -/
def recursive_download (fuel : Nat) (W : Web) (s : SitemapState) :
    List Chars → Option CrawlOutcome
  | [] => some (CrawlOutcome.done s)
  | url :: rest =>
    match fuel with
    | 0 => none
    | Nat.succ fuel =>
      if url ∈ s.visited_sitemaps then recursive_download fuel W s rest
      else
        match urlparse url with
        | none => some CrawlOutcome.aborted
        | some _ =>
          let s1 : SitemapState :=
            ⟨url :: s.visited_sitemaps, s.fetched ++ [url], s.pageTasks⟩
          match List.lookup url W with
          | none => recursive_download fuel W s1 rest
          | some doc =>
            let nested := parse_sitemap_for_nested_sitemaps doc
            if nested = [] then
              recursive_download fuel W
                ⟨s1.visited_sitemaps, s1.fetched, s1.pageTasks ++ parse_sitemap_for_links doc⟩
                rest
            else recursive_download fuel W s1 (nested ++ rest)

/-- `SITEMAP_PATHS` of src/main.py. -/
def SITEMAP_PATHS : List Chars :=
  ["/sitemap.xml", "/sitemap_index.xml", "/sitemap-index.xml",
   "/sitemap/sitemap.xml", "/sitemap1.xml",
   "/sitemap/sitemap-index.xml"].map String.data

/-- `test_and_download_sitemaps` of src/main.py (the crawl part): default
to `https://` when the URL does not start with `http`, extract the domain
(line 298 `get_domain_name` calls `urlparse` outside any `try`, so a
malformed base URL aborts), then traverse each entry path with the shared
`visited_sitemaps` set; the final `visited_sitemaps` is what lines
306-308 write to `found_sitemaps.txt`. -/
def test_and_download_sitemaps (fuel : Nat) (W : Web) (base_url : Chars) :
    Option CrawlOutcome :=
  let base := if "http".data.isPrefixOf base_url then base_url
              else "https://".data ++ base_url
  match urlparse base with
  | none => some CrawlOutcome.aborted
  | some _ =>
    recursive_download fuel W ⟨[], [], []⟩
      (SITEMAP_PATHS.map (fun p => rstripSlash base ++ p))

/-! ### The testable scenario of spec section 8 as a concrete web -/

def smNs : Chars := "http://www.sitemaps.org/schemas/sitemap/0.9".data

def urlSitemapXml : Chars := "https://example.com/sitemap.xml".data

def urlS1Xml : Chars := "https://example.com/s1.xml".data

def urlSitemapIndexXml : Chars := "https://example.com/sitemap_index.xml".data

/-- The index document at `/sitemap.xml`: one `<sitemap><loc>` entry
pointing at `/s1.xml`. -/
def scenarioIndexDoc : Xml :=
  .elem (qualTag smNs "sitemapindex".data) []
    [ .elem (qualTag smNs "sitemap".data) []
        [ .elem (qualTag smNs "loc".data) urlS1Xml [] ] ]

/-- The urlset document at `/s1.xml`: two `<url><loc>` page entries. -/
def scenarioUrlsetDoc : Xml :=
  .elem (qualTag smNs "urlset".data) []
    [ .elem (qualTag smNs "url".data) []
        [ .elem (qualTag smNs "loc".data) "http://example.com/a".data [] ],
      .elem (qualTag smNs "url".data) []
        [ .elem (qualTag smNs "loc".data) "http://example.com/b".data [] ] ]

/-- The web of the scenario: only `/sitemap.xml` and `/s1.xml` fetch
successfully; every other URL (including the five remaining entry-point
paths) fails to fetch. -/
def scenarioWeb : Web :=
  [ (urlSitemapXml, scenarioIndexDoc), (urlS1Xml, scenarioUrlsetDoc) ]

/-! ### Character-level lemmas about the ASCII lower-casing table -/

theorem pyLowerChar_self_or_lowercase (c : Char) :
    pyLowerChar c = c ∨ ('a' ≤ pyLowerChar c ∧ pyLowerChar c ≤ 'z') := by
  unfold pyLowerChar
  split
  all_goals first
    | (left; rfl)
    | (right; decide)

theorem pyLowerChar_of_lowercase (c : Char) (h1 : 'a' ≤ c) (h2 : c ≤ 'z') :
    pyLowerChar c = c := by
  unfold pyLowerChar
  split
  all_goals first
    | rfl
    | (exact absurd h1 (by decide))

theorem pyLowerChar_idem (c : Char) : pyLowerChar (pyLowerChar c) = pyLowerChar c := by
  rcases pyLowerChar_self_or_lowercase c with h | h
  · rw [h]
    exact h
  · exact pyLowerChar_of_lowercase _ h.1 h.2

theorem pyLowerChar_isAlpha (c : Char) : (pyLowerChar c).isAlpha = c.isAlpha := by
  unfold pyLowerChar
  split
  all_goals rfl

theorem pyLowerChar_isSchemeChar (c : Char) :
    isSchemeChar (pyLowerChar c) = isSchemeChar c := by
  unfold pyLowerChar
  split
  all_goals rfl

/-- Lower-casing a character yields a given non-letter character exactly
when the character already was it. -/
theorem pyLowerChar_eq_nonletter (c d : Char)
    (hd : pyLowerChar d = d) (hd2 : ¬('a' ≤ d ∧ d ≤ 'z')) :
    pyLowerChar c = d ↔ c = d := by
  constructor
  · intro h
    rcases pyLowerChar_self_or_lowercase c with h2 | h2
    · rw [← h2, h]
    · rw [h] at h2
      exact absurd h2 hd2
  · intro h
    rw [h, hd]

theorem pyLowerChar_toNat_le32 (c : Char) :
    (pyLowerChar c).toNat ≤ 32 ↔ c.toNat ≤ 32 := by
  unfold pyLowerChar
  split
  all_goals first
    | rfl
    | decide

/-! ### List-level lemmas about lower-casing -/

theorem pyLower_append (a b : Chars) : pyLower (a ++ b) = pyLower a ++ pyLower b :=
  List.map_append pyLowerChar a b

theorem pyLower_cons (c : Char) (l : Chars) :
    pyLower (c :: l) = pyLowerChar c :: pyLower l := rfl

theorem pyLower_idem (l : Chars) : pyLower (pyLower l) = pyLower l := by
  simp only [pyLower, List.map_map]
  exact List.map_congr_left (fun c _ => pyLowerChar_idem c)

theorem pyLower_eq_nil (l : Chars) : pyLower l = [] ↔ l = [] := by
  simp [pyLower]

/-- Membership of a non-letter character is invariant under lower-casing. -/
theorem mem_pyLower_nonletter (d : Char) (l : Chars)
    (hd : pyLowerChar d = d) (hd2 : ¬('a' ≤ d ∧ d ≤ 'z')) :
    d ∈ pyLower l ↔ d ∈ l := by
  simp only [pyLower, List.mem_map]
  constructor
  · rintro ⟨c, hc, h⟩
    rwa [(pyLowerChar_eq_nonletter c d hd hd2).mp h] at hc
  · intro h
    exact ⟨d, h, hd⟩

/-! ### Lemmas about the splitting helpers -/

theorem splitAtFirst_eq_none (ch : Char) (l : Chars) :
    splitAtFirst ch l = none ↔ ch ∉ l := by
  induction l with
  | nil => simp [splitAtFirst]
  | cons c cs ih =>
    by_cases h : c = ch
    · subst h
      simp [splitAtFirst]
    · have hne : ¬ ch = c := fun hh => h hh.symm
      simp only [splitAtFirst, if_neg h, List.mem_cons, not_or]
      cases hs : splitAtFirst ch cs with
      | none =>
        rw [hs] at ih
        simp only [true_iff] at ih
        simp [hne, ih]
      | some p =>
        rcases p with ⟨a, b⟩
        rw [hs] at ih
        simp only [reduceCtorEq, false_iff, not_not] at ih
        simp [ih]

theorem splitAtFirst_eq_some (ch : Char) (l : Chars) :
    ∀ a b, splitAtFirst ch l = some (a, b) → l = a ++ ch :: b ∧ ch ∉ a := by
  induction l with
  | nil => intro a b h; simp [splitAtFirst] at h
  | cons c cs ih =>
    intro a b h
    by_cases hc : c = ch
    · subst hc
      simp only [splitAtFirst, if_true, eq_self_iff_true, Option.some.injEq,
        Prod.mk.injEq] at h
      rw [← h.1, ← h.2]
      simp
    · simp only [splitAtFirst, if_neg hc] at h
      cases hs : splitAtFirst ch cs with
      | none => rw [hs] at h; simp at h
      | some p =>
        rcases p with ⟨a2, b2⟩
        rw [hs] at h
        simp only [Option.some.injEq, Prod.mk.injEq] at h
        obtain ⟨h1, h2⟩ := ih a2 b2 hs
        rw [← h.1, ← h.2]
        refine ⟨by rw [h1]; rfl, ?_⟩
        simp only [List.mem_cons, not_or]
        exact ⟨fun hh => hc hh.symm, h2⟩

theorem splitAtFirst_append (ch : Char) (a b : Chars) (h : ch ∉ a) :
    splitAtFirst ch (a ++ ch :: b) = some (a, b) := by
  induction a with
  | nil => simp [splitAtFirst]
  | cons c cs ih =>
    simp only [List.mem_cons, not_or] at h
    have hc : ¬ c = ch := fun hh => h.1 hh.symm
    rw [List.cons_append]
    simp only [splitAtFirst, if_neg hc, ih h.2]

/-! ### Lemmas about the netloc scan -/

theorem netlocSpan_append_eq (l : Chars) : (netlocSpan l).1 ++ (netlocSpan l).2 = l := by
  induction l with
  | nil => rfl
  | cons c cs ih =>
    by_cases h : c = '/' ∨ c = '?' ∨ c = '#'
    · simp [netlocSpan, h]
    · simp [netlocSpan, h, ih]

theorem netlocSpan_fst_not_delim (l : Chars) :
    ∀ c ∈ (netlocSpan l).1, ¬(c = '/' ∨ c = '?' ∨ c = '#') := by
  induction l with
  | nil => simp [netlocSpan]
  | cons c cs ih =>
    by_cases h : c = '/' ∨ c = '?' ∨ c = '#'
    · simp [netlocSpan, h]
    · simp only [netlocSpan, if_neg h]
      intro d hd
      rcases List.mem_cons.mp hd with rfl | hd2
      · exact h
      · exact ih d hd2

theorem netlocSpan_snd_head (l : Chars) :
    (netlocSpan l).2 = [] ∨
      ∃ c t, (netlocSpan l).2 = c :: t ∧ (c = '/' ∨ c = '?' ∨ c = '#') := by
  induction l with
  | nil => left; rfl
  | cons c cs ih =>
    by_cases h : c = '/' ∨ c = '?' ∨ c = '#'
    · right
      exact ⟨c, cs, by simp [netlocSpan, h], h⟩
    · simpa [netlocSpan, h] using ih

theorem netlocSpan_of (a b : Chars) (ha : ∀ c ∈ a, ¬(c = '/' ∨ c = '?' ∨ c = '#'))
    (hb : b = [] ∨ ∃ c t, b = c :: t ∧ (c = '/' ∨ c = '?' ∨ c = '#')) :
    netlocSpan (a ++ b) = (a, b) := by
  induction a with
  | nil =>
    simp only [List.nil_append]
    rcases hb with rfl | ⟨c, t, rfl, hc⟩
    · rfl
    · simp [netlocSpan, hc]
  | cons c cs ih =>
    have hc := ha c (List.mem_cons_self c cs)
    have := ih (fun d hd => ha d (List.mem_cons_of_mem c hd))
    simp [netlocSpan, hc, this]

/-! ### Lemmas about trailing-slash stripping -/

theorem head_dropWhile_not (p : Char → Bool) (l : Chars) :
    ∀ c, (l.dropWhile p).head? = some c → p c = false := by
  induction l with
  | nil => intro c h; simp [List.dropWhile] at h
  | cons d ds ih =>
    intro c h
    by_cases hp : p d
    · rw [List.dropWhile_cons_of_pos hp] at h
      exact ih c h
    · rw [List.dropWhile_cons_of_neg hp] at h
      simp only [List.head?_cons, Option.some.injEq] at h
      rw [← h]
      exact Bool.of_not_eq_true hp

theorem rstripSlash_getLast (l : Chars) : (rstripSlash l).getLast? ≠ some '/' := by
  intro h
  rw [rstripSlash, List.getLast?_reverse] at h
  have := head_dropWhile_not (· == '/') l.reverse '/' h
  simp at this

theorem rstripSlash_eq_self (l : Chars) (h : l.getLast? ≠ some '/') :
    rstripSlash l = l := by
  rw [rstripSlash]
  cases hr : l.reverse with
  | nil =>
    have : l = [] := by simpa using congrArg List.reverse hr
    simp [this, hr]
  | cons c cs =>
    have hc : ¬(c == '/') = true := by
      intro hcontra
      apply h
      rw [← List.head?_reverse]
      simp_all
    rw [List.dropWhile_cons]
    simp only [hc, if_false, Bool.false_eq_true]
    rw [← hr, List.reverse_reverse]

theorem rstripSlash_idem (l : Chars) : rstripSlash (rstripSlash l) = rstripSlash l :=
  rstripSlash_eq_self _ (rstripSlash_getLast l)

/-- `rstripSlash` removes a (possibly empty) suffix of slashes. -/
theorem rstripSlash_decomp (l : Chars) :
    ∃ t, rstripSlash l ++ t = l ∧ ∀ c ∈ t, c = '/' := by
  refine ⟨(l.reverse.takeWhile (· == '/')).reverse, ?_, ?_⟩
  · rw [rstripSlash, ← List.reverse_append, List.takeWhile_append_dropWhile, List.reverse_reverse]
  · intro c hc
    rw [List.mem_reverse] at hc
    have := List.mem_takeWhile_imp hc
    simpa using this

theorem mem_rstripSlash (l : Chars) (c : Char) (h : c ∈ rstripSlash l) : c ∈ l := by
  obtain ⟨t, ht, -⟩ := rstripSlash_decomp l
  rw [← ht]
  exact List.mem_append_left _ h

theorem rstripSlash_head (l : Chars) :
    rstripSlash l = [] ∨ (rstripSlash l).head? = l.head? := by
  obtain ⟨t, ht, -⟩ := rstripSlash_decomp l
  cases hr : rstripSlash l with
  | nil => left; rfl
  | cons c cs =>
    right
    rw [← ht, hr]
    simp

/-! ### Invariants of the discovery event system -/

def submittedUrls (s : CrawlState) : List Chars := s.submitted.map Prod.fst

theorem process_discovery_inv (s : CrawlState) (d : Discovery)
    (h1 : (submittedUrls s).Nodup)
    (h2 : ∀ u ∈ submittedUrls s, u ∈ s.visited_links) :
    (submittedUrls (process_discovery s d)).Nodup ∧
      ∀ u ∈ submittedUrls (process_discovery s d),
        u ∈ (process_discovery s d).visited_links := by
  have grow : ∀ (n o : Chars), n ∉ s.visited_links →
      (submittedUrls ⟨n :: s.visited_links, s.submitted ++ [(n, o)]⟩).Nodup ∧
        ∀ u ∈ submittedUrls ⟨n :: s.visited_links, s.submitted ++ [(n, o)]⟩,
          u ∈ n :: s.visited_links := by
    intro n o hn
    constructor
    · simp only [submittedUrls, List.map_append]
      refine List.Nodup.append h1 (by simp) ?_
      intro u hu hv
      simp only [List.map_cons, List.map_nil, List.mem_singleton] at hv
      subst hv
      exact hn (h2 u hu)
    · intro u hu
      simp only [submittedUrls, List.map_append, List.mem_append, List.map_cons,
        List.map_nil, List.mem_singleton] at hu
      rcases hu with hu | hu
      · exact List.mem_cons_of_mem _ (h2 u hu)
      · subst hu
        exact List.mem_cons_self _ _
  have keep : ∀ n : Chars,
      (submittedUrls ⟨n :: s.visited_links, s.submitted⟩).Nodup ∧
        ∀ u ∈ submittedUrls ⟨n :: s.visited_links, s.submitted⟩,
          u ∈ n :: s.visited_links :=
    fun n => ⟨h1, fun u hu => List.mem_cons_of_mem _ (h2 u hu)⟩
  cases d with
  | pageLink link f =>
    simp only [process_discovery]
    cases hn : normalize_url link with
    | none => exact ⟨h1, h2⟩
    | some n =>
      simp only []
      split
      · exact ⟨h1, h2⟩
      · split
        · exact ⟨h1, h2⟩
        · rename_i hmem
          split
          · exact grow n f hmem
          · exact keep n
  | innerLink inner o =>
    simp only [process_discovery]
    split
    · exact ⟨h1, h2⟩
    · cases hn : normalize_url inner with
      | none => exact ⟨h1, h2⟩
      | some n =>
        simp only []
        split
        · exact ⟨h1, h2⟩
        · rename_i hmem
          exact grow n o hmem

theorem run_discoveries_inv (ds : List Discovery) :
    ∀ s, (submittedUrls s).Nodup → (∀ u ∈ submittedUrls s, u ∈ s.visited_links) →
      (submittedUrls (run_discoveries s ds)).Nodup ∧
        ∀ u ∈ submittedUrls (run_discoveries s ds),
          u ∈ (run_discoveries s ds).visited_links := by
  induction ds with
  | nil => exact fun s h1 h2 => ⟨h1, h2⟩
  | cons d ds ih =>
    intro s h1 h2
    have h := process_discovery_inv s d h1 h2
    exact ih _ h.1 h.2

/-- Claim C1: for every normalized link URL, at most one validation task
(`check_link` submission) is ever scheduled for it across any schedule of
concurrent page and inner-link discoveries, because every scheduling path
atomically checks-then-inserts the normalized URL into `visited_links`
under `visited_links_lock` before submitting. -/
theorem claim_C1_at_most_one_validation (ds : List Discovery) :
    ((run_discoveries crawlInit ds).submitted.map Prod.fst).Nodup := by
  have h := run_discoveries_inv ds crawlInit (by simp [submittedUrls, crawlInit])
    (by simp [submittedUrls, crawlInit])
  exact h.1

/-- The discovery trace behind the claim C10 counterexample: page `/a`
(processed first) discovers `/b` as an inner link and wins the claim;
the page task for `/b`, listed in the same urlset, then runs second. -/
def cexC10Discoveries : List Discovery :=
  [ .innerLink "http://example.com/b".data "http://example.com/a".data,
    .pageLink "http://example.com/b".data "example.com/xml/s1/s1.xml".data ]

/-- Claim C10 counterexample: `http://example.com/b` is a page URL listed
in the scenario urlset whose normalized form has no binary-asset
extension, yet a `check_link` validation is submitted for it (via the
inner-link path of another page that discovered it first), contradicting
"never itself submitted for validation". -/
theorem claim_C10_counterexample :
    "http://example.com/b".data ∈ parse_sitemap_for_links scenarioUrlsetDoc ∧
    normalize_url "http://example.com/b".data = some "http://example.com/b".data ∧
    hasAssetExtension "http://example.com/b".data = false ∧
    (run_discoveries crawlInit cexC10Discoveries).submitted.map Prod.fst =
      ["http://example.com/b".data] := by
  decide

/-- Claim C10 (amended): the page-processing path itself never submits a
non-asset page URL for validation: a `pageLink` event whose normalized URL
lacks a binary-asset extension adds no `check_link` submission (its
fetch/extraction failures are swallowed); such a URL can still be
validated when another page discovers it first through the inner-link
path. -/
theorem claim_C10_amended (s : CrawlState) (link localFile : Chars)
    (h : ((normalize_url link).all fun n => !hasAssetExtension n) = true) :
    (process_discovery s (.pageLink link localFile)).submitted = s.submitted := by
  simp only [process_discovery]
  cases hn : normalize_url link with
  | none => rfl
  | some n =>
    rw [hn] at h
    simp only [Option.all_some] at h
    simp only []
    split
    · rfl
    · split
      · rfl
      · split
        · rename_i hasset
          rw [hasset] at h
          simp at h
        · rfl

/-- Witness for the amended claim C10 at a concrete non-asset page URL. -/
theorem claim_C10_amended_witness :
    ((normalize_url "http://example.com/b".data).all fun n => !hasAssetExtension n) = true ∧
    (process_discovery crawlInit
        (.pageLink "http://example.com/b".data "example.com/xml/s1/s1.xml".data)).submitted =
      crawlInit.submitted :=
  ⟨by decide,
   claim_C10_amended crawlInit "http://example.com/b".data
     "example.com/xml/s1/s1.xml".data (by decide)⟩

/-! ### Invariants of the sitemap traversal -/

/-- Fetch attempts mirror the visited set, and each URL is fetched at most
once: both follow from inserting into `visited_sitemaps` immediately
before each fetch and returning early on already-visited URLs. -/
theorem recursive_download_inv (W : Web) :
    ∀ fuel work (s s' : SitemapState),
      recursive_download fuel W s work = some (CrawlOutcome.done s') →
      (∀ u, u ∈ s.visited_sitemaps ↔ u ∈ s.fetched) →
      s.fetched.Nodup →
      (∀ u, u ∈ s'.visited_sitemaps ↔ u ∈ s'.fetched) ∧ s'.fetched.Nodup := by
  intro fuel
  induction fuel with
  | zero =>
    intro work s s' h hiff hnd
    cases work with
    | nil =>
      simp only [recursive_download, Option.some.injEq, CrawlOutcome.done.injEq] at h
      rw [← h]
      exact ⟨hiff, hnd⟩
    | cons url rest => simp [recursive_download] at h
  | succ fuel ih =>
    intro work s s' h hiff hnd
    cases work with
    | nil =>
      simp only [recursive_download, Option.some.injEq, CrawlOutcome.done.injEq] at h
      rw [← h]
      exact ⟨hiff, hnd⟩
    | cons url rest =>
      simp only [recursive_download] at h
      by_cases hv : url ∈ s.visited_sitemaps
      · rw [if_pos hv] at h
        exact ih rest s s' h hiff hnd
      · rw [if_neg hv] at h
        have hiff1 : ∀ u, u ∈ url :: s.visited_sitemaps ↔ u ∈ s.fetched ++ [url] := by
          intro u
          simp only [List.mem_cons, List.mem_append, List.mem_singleton, hiff u]
          tauto
        have hnd1 : (s.fetched ++ [url]).Nodup := by
          refine List.Nodup.append hnd (by simp) ?_
          intro a ha hb
          simp only [List.mem_singleton] at hb
          subst hb
          exact hv ((hiff a).mpr ha)
        cases hpu : urlparse url with
        | none =>
          rw [hpu] at h
          simp at h
        | some p0 =>
          rw [hpu] at h
          simp only [] at h
          cases hl : List.lookup url W with
          | none =>
            rw [hl] at h
            exact ih rest _ s' h hiff1 hnd1
          | some doc =>
            rw [hl] at h
            simp only [] at h
            by_cases hne : parse_sitemap_for_nested_sitemaps doc = []
            · rw [if_pos hne] at h
              exact ih rest _ s' h hiff1 hnd1
            · rw [if_neg hne] at h
              exact ih _ _ s' h hiff1 hnd1

/-- The final state of the spec section 8 scenario crawl (fuel 20). -/
def scenarioFinal : SitemapState :=
  ⟨[ "https://example.com/sitemap/sitemap-index.xml".data,
     "https://example.com/sitemap1.xml".data,
     "https://example.com/sitemap/sitemap.xml".data,
     "https://example.com/sitemap-index.xml".data,
     urlSitemapIndexXml, urlS1Xml, urlSitemapXml ],
   [ urlSitemapXml, urlS1Xml, urlSitemapIndexXml,
     "https://example.com/sitemap-index.xml".data,
     "https://example.com/sitemap/sitemap.xml".data,
     "https://example.com/sitemap1.xml".data,
     "https://example.com/sitemap/sitemap-index.xml".data ],
   [ "http://example.com/a".data, "http://example.com/b".data ]⟩

/-- Claim C2 counterexample: in the spec section 8 scenario the set handed
to the reporting layer (`visited_sitemaps`) has seven URLs, not the two
successfully fetched ones: it contains `/sitemap_index.xml`, an
entry-point path whose fetch failed. -/
theorem claim_C2_counterexample :
    test_and_download_sitemaps 20 scenarioWeb "example.com".data =
      some (CrawlOutcome.done scenarioFinal) ∧
    urlSitemapIndexXml ∈ scenarioFinal.visited_sitemaps ∧
    (List.lookup urlSitemapIndexXml scenarioWeb).isSome = false ∧
    scenarioFinal.visited_sitemaps.length = 7 ∧
    urlSitemapXml ∈ scenarioFinal.visited_sitemaps ∧
    urlS1Xml ∈ scenarioFinal.visited_sitemaps := by
  decide

/-- Claim C2 (amended): the set written to `found_sitemaps.txt` at the end
of a crawl contains exactly the sitemap URLs for which a fetch was
attempted (dispatched), including entry-point paths whose fetch failed —
a superset of the successfully fetched ones.  In the section 8 scenario it
is the six entry URLs together with `/s1.xml`. -/
theorem claim_C2_amended (fuel : Nat) (W : Web) (base : Chars) (s' : SitemapState)
    (h : test_and_download_sitemaps fuel W base = some (CrawlOutcome.done s')) :
    ∀ u, u ∈ s'.visited_sitemaps ↔ u ∈ s'.fetched := by
  unfold test_and_download_sitemaps at h
  simp only [] at h
  cases hb : urlparse (if "http".data.isPrefixOf base then base
      else "https://".data ++ base) with
  | none =>
    rw [hb] at h
    simp at h
  | some p0 =>
    rw [hb] at h
    exact (recursive_download_inv W fuel _ _ s' h (by simp) (by simp)).1

/-- Witness for the amended claim C2 at the scenario crawl. -/
theorem claim_C2_amended_witness :
    test_and_download_sitemaps 20 scenarioWeb "example.com".data =
      some (CrawlOutcome.done scenarioFinal) ∧
    (urlSitemapIndexXml ∈ scenarioFinal.visited_sitemaps ↔
      urlSitemapIndexXml ∈ scenarioFinal.fetched) :=
  ⟨by decide,
   claim_C2_amended 20 scenarioWeb "example.com".data scenarioFinal (by decide)
     urlSitemapIndexXml⟩

/-! ### Termination of the sitemap traversal -/

def sitemapKeys (W : Web) : List Chars := W.map Prod.fst

/-- Total number of nested-sitemap references across the whole web: an
upper bound on how much any single expansion can grow the worklist. -/
def nestedTotal (W : Web) : Nat :=
  (W.map (fun e => (parse_sitemap_for_nested_sitemaps e.2).length)).sum

def unvisitedKeyCount (W : Web) (visited : List Chars) : Nat :=
  ((sitemapKeys W).toFinset.filter (fun k => k ∉ visited)).card

/-- The termination measure of the traversal: pending work plus the
weighted number of fetchable-but-unvisited sitemap URLs. -/
def smMeasure (W : Web) (visited : List Chars) (work : List Chars) : Nat :=
  work.length + (nestedTotal W + 1) * unvisitedKeyCount W visited

theorem unvisitedKeyCount_cons_le (W : Web) (url : Chars) (visited : List Chars) :
    unvisitedKeyCount W (url :: visited) ≤ unvisitedKeyCount W visited := by
  apply Finset.card_le_card
  intro k hk
  simp only [Finset.mem_filter, decide_eq_true_eq] at hk ⊢
  exact ⟨hk.1, fun hmem => hk.2 (List.mem_cons_of_mem _ hmem)⟩

theorem unvisitedKeyCount_cons_lt (W : Web) (url : Chars) (visited : List Chars)
    (hk : url ∈ sitemapKeys W) (hv : url ∉ visited) :
    unvisitedKeyCount W (url :: visited) < unvisitedKeyCount W visited := by
  apply Finset.card_lt_card
  constructor
  · intro k hmem
    simp only [Finset.mem_filter, decide_eq_true_eq] at hmem ⊢
    exact ⟨hmem.1, fun hin => hmem.2 (List.mem_cons_of_mem _ hin)⟩
  · intro hsub
    have h1 : url ∈ (sitemapKeys W).toFinset.filter (fun k => k ∉ visited) := by
      simp only [Finset.mem_filter, List.mem_toFinset, decide_eq_true_eq]
      exact ⟨hk, hv⟩
    have h2 := hsub h1
    simp at h2

theorem lookup_mem_keys (W : Web) (url : Chars) (doc : Xml)
    (h : List.lookup url W = some doc) : url ∈ sitemapKeys W ∧ (url, doc) ∈ W := by
  induction W with
  | nil => simp [List.lookup] at h
  | cons e es ih =>
    rcases e with ⟨k, v⟩
    simp only [List.lookup] at h
    by_cases hk : url = k
    · subst hk
      rw [beq_self_eq_true] at h
      simp only [Option.some.injEq] at h
      rw [← h]
      refine ⟨?_, List.mem_cons_self _ _⟩
      simp only [sitemapKeys, List.map_cons]
      exact List.mem_cons_self _ _
    · have hbeq : (url == k) = false := beq_eq_false_iff_ne.mpr hk
      rw [hbeq] at h
      simp only [] at h
      obtain ⟨h1, h2⟩ := ih h
      refine ⟨?_, List.mem_cons_of_mem _ h2⟩
      simp only [sitemapKeys, List.map_cons, List.mem_cons]
      right
      exact h1

theorem nested_length_le (W : Web) (url : Chars) (doc : Xml)
    (h : List.lookup url W = some doc) :
    (parse_sitemap_for_nested_sitemaps doc).length ≤ nestedTotal W := by
  obtain ⟨-, hmem⟩ := lookup_mem_keys W url doc h
  have : (parse_sitemap_for_nested_sitemaps doc).length ∈
      W.map (fun e => (parse_sitemap_for_nested_sitemaps e.2).length) :=
    List.mem_map.mpr ⟨(url, doc), hmem, rfl⟩
  exact List.single_le_sum (fun x _ => Nat.zero_le x) _ this

/-- With fuel at least the measure, the traversal never exhausts it: the
crawl terminates by exhausting discoverable work. -/
theorem recursive_download_isSome (W : Web) :
    ∀ fuel work (s : SitemapState), smMeasure W s.visited_sitemaps work ≤ fuel →
      (recursive_download fuel W s work).isSome = true := by
  intro fuel
  induction fuel with
  | zero =>
    intro work s h
    cases work with
    | nil => simp [recursive_download]
    | cons url rest =>
      exfalso
      simp [smMeasure] at h
  | succ fuel ih =>
    intro work s h
    cases work with
    | nil => simp [recursive_download]
    | cons url rest =>
      simp only [recursive_download]
      have hmeas : rest.length + 1 +
          (nestedTotal W + 1) * unvisitedKeyCount W s.visited_sitemaps ≤ fuel + 1 := by
        simpa [smMeasure, Nat.add_right_comm] using h
      by_cases hv : url ∈ s.visited_sitemaps
      · rw [if_pos hv]
        apply ih
        simp only [smMeasure]
        omega
      · rw [if_neg hv]
        have hle := unvisitedKeyCount_cons_le W url s.visited_sitemaps
        have hmono : (nestedTotal W + 1) * unvisitedKeyCount W (url :: s.visited_sitemaps) ≤
            (nestedTotal W + 1) * unvisitedKeyCount W s.visited_sitemaps :=
          Nat.mul_le_mul_left _ hle
        cases hpu : urlparse url with
        | none => rfl
        | some p0 =>
          simp only []
          cases hl : List.lookup url W with
          | none =>
            apply ih
            simp only [smMeasure]
            omega
          | some doc =>
            simp only []
            have hkey := (lookup_mem_keys W url doc hl).1
            have hlt := unvisitedKeyCount_cons_lt W url s.visited_sitemaps hkey hv
            by_cases hne : parse_sitemap_for_nested_sitemaps doc = []
            · rw [if_pos hne]
              apply ih
              simp only [smMeasure]
              omega
            · rw [if_neg hne]
              apply ih
              have hnl := nested_length_le W url doc hl
              have hsucc : unvisitedKeyCount W (url :: s.visited_sitemaps) + 1 ≤
                  unvisitedKeyCount W s.visited_sitemaps := hlt
              have hmul : (nestedTotal W + 1) *
                  (unvisitedKeyCount W (url :: s.visited_sitemaps) + 1) ≤
                  (nestedTotal W + 1) * unvisitedKeyCount W s.visited_sitemaps :=
                Nat.mul_le_mul_left _ hsucc
              rw [Nat.mul_succ] at hmul
              simp only [smMeasure, List.length_append]
              omega

/-- Every URL of a list parses without the uncaught `ValueError` of
line 165. -/
def allParse (l : List Chars) : Bool := l.all (fun u => (urlparse u).isSome)

/-- Every nested-sitemap reference anywhere in the web parses. -/
def webNestedParse (W : Web) : Bool :=
  W.all (fun e => allParse (parse_sitemap_for_nested_sitemaps e.2))

/-- When every worklist URL and every nested sitemap reference parses,
the traversal completes normally within the measure. -/
theorem recursive_download_done (W : Web) (hW : webNestedParse W = true) :
    ∀ fuel work (s : SitemapState), smMeasure W s.visited_sitemaps work ≤ fuel →
      allParse work = true →
      ∃ s', recursive_download fuel W s work = some (CrawlOutcome.done s') := by
  intro fuel
  induction fuel with
  | zero =>
    intro work s h hap
    cases work with
    | nil => exact ⟨s, rfl⟩
    | cons url rest =>
      exfalso
      simp [smMeasure] at h
  | succ fuel ih =>
    intro work s h hap
    cases work with
    | nil => exact ⟨s, rfl⟩
    | cons url rest =>
      simp only [allParse, List.all_cons, Bool.and_eq_true] at hap
      simp only [recursive_download]
      have hmeas : rest.length + 1 +
          (nestedTotal W + 1) * unvisitedKeyCount W s.visited_sitemaps ≤ fuel + 1 := by
        simpa [smMeasure, Nat.add_right_comm] using h
      by_cases hv : url ∈ s.visited_sitemaps
      · rw [if_pos hv]
        apply ih
        · simp only [smMeasure]
          omega
        · exact hap.2
      · rw [if_neg hv]
        have hle := unvisitedKeyCount_cons_le W url s.visited_sitemaps
        have hmono : (nestedTotal W + 1) * unvisitedKeyCount W (url :: s.visited_sitemaps) ≤
            (nestedTotal W + 1) * unvisitedKeyCount W s.visited_sitemaps :=
          Nat.mul_le_mul_left _ hle
        cases hpu : urlparse url with
        | none =>
          rw [hpu] at hap
          exact absurd hap.1 (by simp)
        | some p0 =>
          simp only []
          cases hl : List.lookup url W with
          | none =>
            apply ih
            · simp only [smMeasure]
              omega
            · exact hap.2
          | some doc =>
            simp only []
            have hkey := (lookup_mem_keys W url doc hl).1
            have hlt := unvisitedKeyCount_cons_lt W url s.visited_sitemaps hkey hv
            by_cases hne : parse_sitemap_for_nested_sitemaps doc = []
            · rw [if_pos hne]
              apply ih
              · simp only [smMeasure]
                omega
              · exact hap.2
            · rw [if_neg hne]
              have hnl := nested_length_le W url doc hl
              have hsucc : unvisitedKeyCount W (url :: s.visited_sitemaps) + 1 ≤
                  unvisitedKeyCount W s.visited_sitemaps := hlt
              have hmul : (nestedTotal W + 1) *
                  (unvisitedKeyCount W (url :: s.visited_sitemaps) + 1) ≤
                  (nestedTotal W + 1) * unvisitedKeyCount W s.visited_sitemaps :=
                Nat.mul_le_mul_left _ hsucc
              rw [Nat.mul_succ] at hmul
              apply ih
              · simp only [smMeasure, List.length_append]
                omega
              · simp only [allParse, List.all_append, Bool.and_eq_true]
                refine ⟨?_, hap.2⟩
                exact List.all_eq_true.mp hW (url, doc) (lookup_mem_keys W url doc hl).2

/-- A web whose index document references the malformed sitemap URL
`http://[` (which `urlparse` rejects) before a perfectly good sitemap. -/
def crashUrl : Chars := "https://example.com/crash.xml".data

def crashDoc : Xml :=
  .elem (qualTag smNs "sitemapindex".data) []
    [ .elem (qualTag smNs "sitemap".data) []
        [ .elem (qualTag smNs "loc".data) "http://[".data [] ],
      .elem (qualTag smNs "sitemap".data) []
        [ .elem (qualTag smNs "loc".data) "https://example.com/s2.xml".data [] ] ]

def crashWeb : Web :=
  [ (crashUrl, crashDoc), ("https://example.com/s2.xml".data, scenarioUrlsetDoc) ]

/-- The initial worklist of the scenario crawl. -/
def scenarioWork : List Chars :=
  SITEMAP_PATHS.map (fun p => rstripSlash "https://example.com".data ++ p)

/-- Claim C8 counterexample: the crawl does not always terminate by
exhausting discoverable work.  `urlparse(url)` on line 165 sits outside
any `try`, so a discovered sitemap URL that fails to parse (here the
nested `<loc>` `http://[`) aborts the whole crawl with an uncaught
`ValueError`; the still-discoverable sitemap `/s2.xml` of the same index
is never reached and no final state is produced. -/
theorem claim_C8_counterexample :
    urlparse "http://[".data = none ∧
    "https://example.com/s2.xml".data ∈ sitemapKeys crashWeb ∧
    recursive_download 10 crashWeb ⟨[], [], []⟩ [crashUrl] = some CrawlOutcome.aborted ∧
    (∀ s' : SitemapState,
      recursive_download 10 crashWeb ⟨[], [], []⟩ [crashUrl] ≠
        some (CrawlOutcome.done s')) := by
  refine ⟨by decide, by decide, by decide, ?_⟩
  intro s' hc
  have he : recursive_download 10 crashWeb ⟨[], [], []⟩ [crashUrl] =
      some CrawlOutcome.aborted := by decide
  rw [he] at hc
  simp at hc

/-- Claim C8 (amended): (a) on any completed crawl each sitemap URL is
fetched at most once — the URL enters `visited_sitemaps` before the fetch
and already-visited URLs return immediately, so even cyclic sitemap
indexes repeat no fetch; (b) with fuel at least `smMeasure` the traversal
always returns, terminating either by exhausting discoverable work or,
when a discovered sitemap URL fails `urlparse` (line 165, outside any
`try`), by aborting the entire crawl with the uncaught `ValueError`; and
(c) when every worklist URL and every nested sitemap reference parses, it
completes normally by exhausting discoverable work. -/
theorem claim_C8_amended :
    (∀ (W : Web) fuel work (s' : SitemapState),
       recursive_download fuel W ⟨[], [], []⟩ work = some (CrawlOutcome.done s') →
       s'.fetched.Nodup) ∧
    (∀ (W : Web) fuel work (s : SitemapState),
       smMeasure W s.visited_sitemaps work ≤ fuel →
       (recursive_download fuel W s work).isSome = true) ∧
    (∀ (W : Web) fuel work (s : SitemapState),
       webNestedParse W = true → smMeasure W s.visited_sitemaps work ≤ fuel →
       allParse work = true →
       ∃ s', recursive_download fuel W s work = some (CrawlOutcome.done s')) :=
  ⟨fun W fuel work s' h =>
    (recursive_download_inv W fuel work _ s' h (by simp) (by simp)).2,
   fun W fuel work s h => recursive_download_isSome W fuel work s h,
   fun W fuel work s hW h hap => recursive_download_done W hW fuel work s h hap⟩

/-- Witness for claim C8 (amended) on the scenario crawl: its measure is
within fuel 20, the fetch trace repeats no URL, and since every URL in
sight parses the traversal completes normally. -/
theorem claim_C8_amended_witness :
    recursive_download 20 scenarioWeb ⟨[], [], []⟩ scenarioWork =
      some (CrawlOutcome.done scenarioFinal) ∧
    scenarioFinal.fetched.Nodup ∧
    smMeasure scenarioWeb [] scenarioWork ≤ 20 ∧
    (recursive_download 20 scenarioWeb ⟨[], [], []⟩ scenarioWork).isSome = true ∧
    ∃ s', recursive_download 20 scenarioWeb ⟨[], [], []⟩ scenarioWork =
      some (CrawlOutcome.done s') :=
  ⟨by decide,
   claim_C8_amended.1 scenarioWeb 20 scenarioWork scenarioFinal (by decide),
   by decide,
   claim_C8_amended.2.1 scenarioWeb 20 scenarioWork ⟨[], [], []⟩ (by decide),
   claim_C8_amended.2.2 scenarioWeb 20 scenarioWork ⟨[], [], []⟩ (by decide) (by decide)
     (by decide)⟩

/-- Claim C6: for a fetched sitemap document, if parsing yields at least
one nested sitemap URL (a `<loc>` under a `<sitemap>` child), traversal
treats it as an index: it recurses only into the nested sitemap URLs and
the document's page `<url><loc>` entries are ignored (the continuation
state keeps `pageTasks` unchanged and `parse_sitemap_for_links` is never
consulted); if parsing yields no nested sitemap URL, traversal falls
through to page-link mode and submits exactly the document's page URLs. -/
theorem claim_C6_index_vs_leaf (fuel : Nat) (W : Web) (s : SitemapState)
    (url : Chars) (rest : List Chars) (doc : Xml)
    (hv : url ∉ s.visited_sitemaps) (hok : (urlparse url).isSome = true)
    (hl : List.lookup url W = some doc) :
    (parse_sitemap_for_nested_sitemaps doc ≠ [] →
      recursive_download (fuel + 1) W s (url :: rest) =
        recursive_download fuel W
          ⟨url :: s.visited_sitemaps, s.fetched ++ [url], s.pageTasks⟩
          (parse_sitemap_for_nested_sitemaps doc ++ rest)) ∧
    (parse_sitemap_for_nested_sitemaps doc = [] →
      recursive_download (fuel + 1) W s (url :: rest) =
        recursive_download fuel W
          ⟨url :: s.visited_sitemaps, s.fetched ++ [url],
            s.pageTasks ++ parse_sitemap_for_links doc⟩ rest) := by
  obtain ⟨p0, hpu⟩ := Option.isSome_iff_exists.mp hok
  constructor <;> intro hne <;> simp [recursive_download, hv, hpu, hl, hne]

/-- A sitemap document carrying both a nested `<sitemap><loc>` entry and a
`<url><loc>` page entry, to exercise the index branch of claim C6. -/
def mixedDoc : Xml :=
  .elem (qualTag smNs "sitemapindex".data) []
    [ .elem (qualTag smNs "sitemap".data) []
        [ .elem (qualTag smNs "loc".data) "https://example.com/child.xml".data [] ],
      .elem (qualTag smNs "url".data) []
        [ .elem (qualTag smNs "loc".data) "http://example.com/ignored-page".data [] ] ]

def mixedWeb : Web := [ ("https://example.com/mixed.xml".data, mixedDoc) ]

/-- Witness for claim C6: on a document with both nested sitemaps and page
entries, one traversal step descends into the nested sitemap only, with
`pageTasks` unchanged. -/
theorem claim_C6_witness :
    "https://example.com/mixed.xml".data ∉ (⟨[], [], []⟩ : SitemapState).visited_sitemaps ∧
    (urlparse "https://example.com/mixed.xml".data).isSome = true ∧
    List.lookup "https://example.com/mixed.xml".data mixedWeb = some mixedDoc ∧
    parse_sitemap_for_nested_sitemaps mixedDoc ≠ [] ∧
    recursive_download 3 mixedWeb ⟨[], [], []⟩ ["https://example.com/mixed.xml".data] =
      recursive_download 2 mixedWeb
        ⟨["https://example.com/mixed.xml".data], ["https://example.com/mixed.xml".data], []⟩
        (parse_sitemap_for_nested_sitemaps mixedDoc ++ []) :=
  ⟨by decide, by decide, by rfl, by decide,
   (claim_C6_index_vs_leaf 2 mixedWeb ⟨[], [], []⟩ "https://example.com/mixed.xml".data []
      mixedDoc (by decide) (by decide) (by rfl)).1 (by decide)⟩

/-! ### Claim C3: exception behaviour of the normalizer -/

/-- The netloc `urlsplit` would check on a given input. -/
def pendingNetloc (u : Chars) : Chars := (netlocSplitOf u).1

/-- The exact condition under which CPython 3.11 `urlsplit` raises
`ValueError` for a netloc: mismatched square brackets, a present
bracketed host failing `_check_bracketed_host`, or a non-ASCII netloc
whose NFKC normalization produces a URL delimiter (`_checknetloc`). -/
def netlocRejected (nl : Chars) : Bool :=
  bracketsMismatched nl ||
    (decide ((('[' : Char) ∈ nl) ∧ ((']' : Char) ∈ nl)) &&
      !check_bracketed_host (bracketedHostOf nl)) ||
    checknetloc_rejects nl

/-- Claim C3 counterexample: the URL normalizer does have error cases —
on the malformed URL `http://[` it raises `ValueError("Invalid IPv6 URL")`
(modelled as `none`) instead of returning a string, and on the
bracket-free URL `http://a℀.com` (U+2100, whose NFKC normalization
is `a/c`) `_checknetloc` raises `ValueError` as well. -/
theorem claim_C3_counterexample :
    normalize_url "http://[".data = none ∧
    normalize_url "http://a℀.com".data = none := by decide

/-- Claim C3 (amended): the normalizer is a total deterministic function
except that it raises `ValueError` exactly when the authority component it
splits off has mismatched square brackets, a bracketed host failing
CPython's bracketed-host validation, or a non-ASCII character whose NFKC
normalization introduces a URL delimiter; on every other input it returns
a deterministic string without exception. -/
theorem claim_C3_amended (u : Chars) :
    normalize_url u = none ↔ netlocRejected (pendingNetloc u) = true := by
  simp only [normalize_url, urlparse, urlsplit, pendingNetloc, netlocRejected]
  by_cases h1 : bracketsMismatched (netlocSplitOf u).1 = true
  · simp [h1]
  · rw [Bool.not_eq_true] at h1
    by_cases h2 : (('[' : Char) ∈ (netlocSplitOf u).1 ∧ (']' : Char) ∈ (netlocSplitOf u).1) ∧
        check_bracketed_host (bracketedHostOf (netlocSplitOf u).1) = false
    · simp [h1, h2]
    · by_cases h3 : checknetloc_rejects (netlocSplitOf u).1 = true
      · simp [h1, h2, h3]
      · have hne : ∀ (c : Prop) (inst : Decidable c) (a b : ParseResult),
            (match (if c then some a else some b : Option ParseResult) with
              | none => (none : Option Chars)
              | some p =>
                some (pyLower (urlunparse
                  ⟨p.scheme, p.netloc, rstripSlash p.path, p.params, [], []⟩))) ≠ none := by
          intro c inst a b
          by_cases hc : c
          · simp [hc]
          · simp [hc]
        rw [Bool.not_eq_true] at h3
        simp only [h1, h2, h3]
        simp only [Bool.false_eq_true, false_or, if_false, Bool.or_false]
        constructor
        · intro hcontra
          exact absurd hcontra (hne _ _ _ _)
        · intro hcontra
          rw [Bool.false_or, Bool.and_eq_true, decide_eq_true_eq, Bool.not_eq_true']
            at hcontra
          exact absurd hcontra h2

/-- Witness: a bracket-free URL is never rejected, so by the amended claim
its normalization returns a string. -/
theorem claim_C3_amended_witness :
    (normalize_url "https://Example.com/A/".data = none ↔
      netlocRejected (pendingNetloc "https://Example.com/A/".data) = true) ∧
    normalize_url "https://Example.com/A/".data = some "https://example.com/a".data :=
  ⟨claim_C3_amended "https://Example.com/A/".data, by decide⟩

/-! ### Claims C4 and C5: the link validator -/

/-- Claim C4 counterexample: a dead result with zero appended records.
The HEAD call on `http://[` fails (transport error, a dead result), but
`normalize_url` on line 98 of src/main.py — outside the `try` — raises,
so `check_link` appends nothing instead of exactly one record. -/
theorem claim_C4_counterexample :
    isDeadResult (.transportError "Invalid URL".data) = true ∧
    check_link "http://[".data "http://example.com/a".data "example.com".data
        (.transportError "Invalid URL".data) = none ∧
    recordsOf (check_link "http://[".data "http://example.com/a".data "example.com".data
        (.transportError "Invalid URL".data)) = [] := by
  decide

/-- Claim C4 (amended): provided the normalization and re-parsing inside
`check_link` raise no exception (as is the case for every URL the crawler
schedules, which are pre-normalized), every dead result (HTTP status at
least 400, or a transport error) appends exactly one record, a transport
error being recorded as the string `Error: …` in the status field; and
for every integer HTTP status below 400 no record is emitted, the
collection staying unchanged — the latter unconditionally. -/
theorem claim_C4_dead_record_live_silent (url origin root : Chars) (resp : HeadResult) :
    (∀ n, resp = .status n → n < 400 →
      recordsOf (check_link url origin root resp) = []) ∧
    (∀ dest source pd, normalize_url url = some dest → normalize_url origin = some source →
      urlparse dest = some pd → isDeadResult resp = true →
      recordsOf (check_link url origin root resp) =
        [⟨source, dest,
          (match resp with
           | .status n => .code n
           | .transportError e => .error ("Error: ".data ++ e)),
          pd.netloc,
          if pyIn root pd.netloc then "Internal".data else "External".data⟩]) := by
  constructor
  · intro n hresp hlt
    subst hresp
    simp only [check_link]
    cases normalize_url url with
    | none => rfl
    | some dest =>
      simp only []
      cases normalize_url origin with
      | none => rfl
      | some source =>
        simp only []
        cases urlparse dest with
        | none => rfl
        | some pd =>
          simp only [if_pos hlt]
          rfl
  · intro dest source pd hdest hsource hpd hdead
    simp only [check_link, hdest, hsource, hpd]
    cases resp with
    | status n =>
      simp only [isDeadResult, decide_eq_true_eq] at hdead
      have : ¬ n < 400 := Nat.not_lt.mpr hdead
      simp only [if_neg this]
      rfl
    | transportError e => rfl

/-- Witness for the amended claim C4: a 404 on a pre-normalized URL yields
exactly the single expected record, and a 200 yields none. -/
theorem claim_C4_witness :
    normalize_url "http://example.com/missing".data = some "http://example.com/missing".data ∧
    normalize_url "http://example.com/a".data = some "http://example.com/a".data ∧
    (urlparse "http://example.com/missing".data).isSome = true ∧
    isDeadResult (.status 404) = true ∧
    ((.status 404 : HeadResult) = .status 404 → (404 : Nat) < 400 →
      recordsOf (check_link "http://example.com/missing".data "http://example.com/a".data
        "example.com".data (.status 404)) = []) ∧
    recordsOf (check_link "http://example.com/missing".data "http://example.com/a".data
        "example.com".data (.status 404)) =
      [⟨"http://example.com/a".data, "http://example.com/missing".data, .code 404,
        "example.com".data, "Internal".data⟩] := by
  refine ⟨by decide, by decide, by decide, by decide,
    fun _ h => absurd h (by decide), ?_⟩
  have h := (claim_C4_dead_record_live_silent "http://example.com/missing".data
    "http://example.com/a".data "example.com".data (.status 404)).2
    "http://example.com/missing".data "http://example.com/a".data
    ⟨"http".data, "example.com".data, "/missing".data, [], [], []⟩
    (by decide) (by decide) (by decide) (by decide)
  rw [h]
  decide

/-- Claim C5: every record `check_link` emits is classified `Internal`
exactly when the root domain string occurs as a substring of the dead
link's domain (the netloc of its normalized URL), and `External`
otherwise. -/
theorem claim_C5_classification (url origin root : Chars) (resp : HeadResult)
    (r : DeadLinkRecord) (h : check_link url origin root resp = some (some r)) :
    (pyIn root r.domain = true → r.linkType = "Internal".data) ∧
    (pyIn root r.domain = false → r.linkType = "External".data) := by
  simp only [check_link] at h
  cases hdest : normalize_url url with
  | none => rw [hdest] at h; simp at h
  | some dest =>
    rw [hdest] at h
    simp only [] at h
    cases hsource : normalize_url origin with
    | none => rw [hsource] at h; simp at h
    | some source =>
      rw [hsource] at h
      simp only [] at h
      cases hpd : urlparse dest with
      | none => rw [hpd] at h; simp at h
      | some pd =>
        rw [hpd] at h
        simp only [] at h
        have hr : r.domain = pd.netloc ∧
            r.linkType = (if pyIn root pd.netloc then "Internal".data else "External".data) := by
          cases resp with
          | status n =>
            simp only [] at h
            by_cases hlt : n < 400
            · rw [if_pos hlt] at h
              simp at h
            · rw [if_neg hlt] at h
              simp only [Option.some.injEq] at h
              rw [← h]
              exact ⟨rfl, rfl⟩
          | transportError e =>
            simp only [] at h
            simp only [Option.some.injEq] at h
            rw [← h]
            exact ⟨rfl, rfl⟩
        obtain ⟨hdom, hty⟩ := hr
        rw [hdom] at *
        constructor
        · intro hin
          rw [hty, if_pos hin]
        · intro hin
          rw [hty, if_neg (by rw [hin]; exact Bool.false_ne_true)]

/-- Witness for claim C5: a 404 on `cdn.example.com` against root domain
`example.com` is Internal, and on `other.org` External. -/
theorem claim_C5_witness :
    check_link "http://cdn.example.com/x".data "http://example.com/a".data "example.com".data
        (.status 404) =
      some (some ⟨"http://example.com/a".data, "http://cdn.example.com/x".data, .code 404,
        "cdn.example.com".data, "Internal".data⟩) ∧
    (pyIn "example.com".data "cdn.example.com".data = true →
      ("Internal".data : Chars) = "Internal".data) ∧
    check_link "http://other.org/x".data "http://example.com/a".data "example.com".data
        (.status 404) =
      some (some ⟨"http://example.com/a".data, "http://other.org/x".data, .code 404,
        "other.org".data, "External".data⟩) ∧
    (pyIn "example.com".data "other.org".data = false →
      ("External".data : Chars) = "External".data) :=
  ⟨by decide,
   fun h => (claim_C5_classification "http://cdn.example.com/x".data
     "http://example.com/a".data "example.com".data (.status 404)
     ⟨"http://example.com/a".data, "http://cdn.example.com/x".data, .code 404,
       "cdn.example.com".data, "Internal".data⟩ (by decide)).1 h,
   by decide,
   fun h => (claim_C5_classification "http://other.org/x".data
     "http://example.com/a".data "example.com".data (.status 404)
     ⟨"http://example.com/a".data, "http://other.org/x".data, .code 404,
       "other.org".data, "External".data⟩ (by decide)).2 h⟩

/-! ### Character classes and the cleaned URL -/

theorem isAlpha_gt32 (c : Char) (h : c.isAlpha = true) : 32 < c.toNat := by
  simp only [Char.isAlpha, Char.isUpper, Char.isLower, Bool.or_eq_true,
    Bool.and_eq_true, decide_eq_true_eq] at h
  rcases h with ⟨h1, -⟩ | ⟨h1, -⟩ <;>
  · rw [ge_iff_le, UInt32.le_def, BitVec.le_def] at h1
    have e1 : c.toNat = c.val.toBitVec.toNat := rfl
    first
      | (have e2 : ((65 : UInt32)).toBitVec.toNat = 65 := rfl
         omega)
      | (have e2 : ((97 : UInt32)).toBitVec.toNat = 97 := rfl
         omega)

theorem isSchemeChar_not_unsafe (c : Char) (h : isSchemeChar c = true) :
    ¬(c = '\t' ∨ c = '\r' ∨ c = '\n') := by
  rintro (rfl | rfl | rfl) <;> simp [isSchemeChar] at h

theorem mem_dropWhile (p : Char → Bool) (l : Chars) (c : Char)
    (h : c ∈ l.dropWhile p) : c ∈ l := by
  induction l with
  | nil => simp at h
  | cons d ds ih =>
    by_cases hp : p d
    · rw [List.dropWhile_cons_of_pos hp] at h
      exact List.mem_cons_of_mem _ (ih h)
    · rwa [List.dropWhile_cons_of_neg hp] at h

theorem mem_cleanedUrl (u : Chars) (c : Char) (h : c ∈ cleanedUrl u) : c ∈ u :=
  mem_dropWhile _ u c (List.mem_of_mem_filter h)

theorem not_unsafe_mem_cleanedUrl (u : Chars) (c : Char) (h : c ∈ cleanedUrl u) :
    ¬(c = '\t' ∨ c = '\r' ∨ c = '\n') := by
  have hp := List.of_mem_filter h
  intro hc
  rcases hc with rfl | rfl | rfl <;> simp at hp

theorem cleanedUrl_head (u : Chars) (c : Char) (h : (cleanedUrl u).head? = some c) :
    32 < c.toNat := by
  unfold cleanedUrl removeUnsafeBytes lstripControlOrSpace at h
  cases hd : u.dropWhile (fun c => decide (c.toNat ≤ 32)) with
  | nil => rw [hd] at h; simp at h
  | cons d rest =>
    have hq := head_dropWhile_not (fun c => decide (c.toNat ≤ 32)) u d (by rw [hd]; rfl)
    simp only [decide_eq_false_iff_not, Nat.not_le] at hq
    have hpred : (!(d == '\t' || d == '\r' || d == '\n')) = true := by
      simp only [Bool.not_eq_true', Bool.or_eq_false_iff, beq_eq_false_iff_ne]
      refine ⟨⟨?_, ?_⟩, ?_⟩ <;> (rintro rfl; revert hq; decide)
    rw [hd, List.filter_cons, if_pos hpred] at h
    simp only [List.head?_cons, Option.some.injEq] at h
    rw [← h]
    exact hq

theorem cleanedUrl_fixed (v : Chars)
    (hh : v = [] ∨ ∃ c t, v = c :: t ∧ 32 < c.toNat)
    (hm : ∀ c ∈ v, ¬(c = '\t' ∨ c = '\r' ∨ c = '\n')) :
    cleanedUrl v = v := by
  unfold cleanedUrl removeUnsafeBytes lstripControlOrSpace
  have hdrop : v.dropWhile (fun c => decide (c.toNat ≤ 32)) = v := by
    rcases hh with rfl | ⟨c, t, rfl, hc⟩
    · rfl
    · apply List.dropWhile_cons_of_neg
      simp only [decide_eq_true_eq, Nat.not_le]
      exact hc
  rw [hdrop]
  apply List.filter_eq_self.mpr
  intro c hc
  have := hm c hc
  simp only [Bool.not_eq_true', Bool.or_eq_false_iff, beq_eq_false_iff_ne]
  tauto

/-! ### The scheme stage -/

theorem splitScheme_eq_of_none (w : Chars) (h : splitAtFirst ':' w = none) :
    splitScheme w = ([], w) := by
  unfold splitScheme
  rw [h]

theorem splitScheme_eq_of_nil (w post : Chars) (h : splitAtFirst ':' w = some ([], post)) :
    splitScheme w = ([], w) := by
  unfold splitScheme
  rw [h]

theorem splitScheme_eq_of_pos (w post : Chars) (c : Char) (t : Chars)
    (h : splitAtFirst ':' w = some (c :: t, post))
    (hc : (c.isAlpha && (c :: t).all isSchemeChar) = true) :
    splitScheme w = (pyLower (c :: t), post) := by
  unfold splitScheme
  rw [h]
  simp only []
  rw [if_pos hc]

theorem splitScheme_eq_of_neg (w post : Chars) (c : Char) (t : Chars)
    (h : splitAtFirst ':' w = some (c :: t, post))
    (hc : ¬ (c.isAlpha && (c :: t).all isSchemeChar) = true) :
    splitScheme w = ([], w) := by
  unfold splitScheme
  rw [h]
  simp only []
  rw [if_neg hc]

theorem splitScheme_spec (w : Chars) :
    splitScheme w = ([], w) ∨
    ∃ pre post, w = pre ++ ':' :: post ∧ (':' : Char) ∉ pre ∧ pre ≠ [] ∧
      (∃ c t, pre = c :: t ∧ c.isAlpha = true) ∧ pre.all isSchemeChar = true ∧
      splitScheme w = (pyLower pre, post) := by
  cases hs : splitAtFirst ':' w with
  | none => exact Or.inl (splitScheme_eq_of_none w hs)
  | some p =>
    rcases p with ⟨pre, post⟩
    obtain ⟨hw, hpre⟩ := splitAtFirst_eq_some ':' w pre post hs
    cases hp : pre with
    | nil => exact Or.inl (splitScheme_eq_of_nil w post (hp ▸ hs))
    | cons c t =>
      by_cases hcond : (c.isAlpha && (c :: t).all isSchemeChar) = true
      · right
        refine ⟨c :: t, post, hp ▸ hw, hp ▸ hpre, List.cons_ne_nil c t, ?_, ?_, ?_⟩
        · simp only [Bool.and_eq_true] at hcond
          exact ⟨c, t, rfl, hcond.1⟩
        · simp only [Bool.and_eq_true] at hcond
          exact hcond.2
        · exact splitScheme_eq_of_pos w post c t (hp ▸ hs) hcond
      · exact Or.inl (splitScheme_eq_of_neg w post c t (hp ▸ hs) hcond)

theorem splitScheme_accept (s post : Chars)
    (h1 : ∃ c t, s = c :: t ∧ c.isAlpha = true) (h2 : s.all isSchemeChar = true) :
    splitScheme (s ++ ':' :: post) = (pyLower s, post) := by
  have hcolon : (':' : Char) ∉ s := by
    intro hc
    have := List.all_eq_true.mp h2 ':' hc
    simp [isSchemeChar] at this
  obtain ⟨c, t, rfl, hc⟩ := h1
  apply splitScheme_eq_of_pos _ post c t (splitAtFirst_append ':' _ post hcolon)
  simp only [Bool.and_eq_true]
  exact ⟨hc, h2⟩

theorem splitScheme_head_notalpha (c : Char) (t : Chars)
    (h1 : c.isAlpha = false) (h2 : c ≠ ':') :
    splitScheme (c :: t) = ([], c :: t) := by
  cases hs : splitAtFirst ':' (c :: t) with
  | none => exact splitScheme_eq_of_none _ hs
  | some p =>
    rcases p with ⟨pre, post⟩
    obtain ⟨hw, hpre⟩ := splitAtFirst_eq_some ':' (c :: t) pre post hs
    cases hp : pre with
    | nil =>
      rw [hp] at hw
      simp only [List.nil_append, List.cons.injEq] at hw
      exact absurd hw.1 h2
    | cons c2 t2 =>
      rw [hp] at hw
      simp only [List.cons_append, List.cons.injEq] at hw
      have hc2 : c2 = c := hw.1.symm
      subst hc2
      apply splitScheme_eq_of_neg _ post c2 t2 (hp ▸ hs)
      simp only [Bool.and_eq_true, not_and]
      intro hcontra
      rw [h1] at hcontra
      exact absurd hcontra Bool.false_ne_true

theorem splitScheme_none_of_prefix (w pa t : Chars) (hw : splitScheme w = ([], w))
    (hpre : pa ++ t = w) : splitScheme pa = ([], pa) := by
  cases hs : splitAtFirst ':' pa with
  | none => exact splitScheme_eq_of_none _ hs
  | some p =>
    rcases p with ⟨pre, post⟩
    obtain ⟨hpa, hnc⟩ := splitAtFirst_eq_some ':' pa pre post hs
    have hw2 : w = pre ++ ':' :: (post ++ t) := by
      rw [← hpre, hpa]
      simp
    have hsw : splitAtFirst ':' w = some (pre, post ++ t) := by
      rw [hw2]
      exact splitAtFirst_append ':' pre (post ++ t) hnc
    cases hp : pre with
    | nil => exact splitScheme_eq_of_nil _ post (hp ▸ hs)
    | cons c t2 =>
      apply splitScheme_eq_of_neg _ post c t2 (hp ▸ hs)
      intro hcond
      have hacc : splitScheme w = (pyLower (c :: t2), post ++ t) :=
        splitScheme_eq_of_pos w (post ++ t) c t2 (hp ▸ hsw) hcond
      rw [hw] at hacc
      have hfst : ([] : Chars) = pyLower (c :: t2) := congrArg Prod.fst hacc
      simp [pyLower] at hfst

theorem splitAtFirst_pyLower (ch : Char) (l : Chars)
    (hch : pyLowerChar ch = ch) (hch2 : ¬('a' ≤ ch ∧ ch ≤ 'z')) :
    splitAtFirst ch (pyLower l) =
      (splitAtFirst ch l).map (fun p => (pyLower p.1, pyLower p.2)) := by
  induction l with
  | nil => rfl
  | cons c cs ih =>
    rw [pyLower_cons]
    by_cases hc : c = ch
    · subst hc
      rw [hch]
      simp [splitAtFirst, pyLower]
    · have hc2 : ¬ pyLowerChar c = ch := by
        intro hcontra
        exact hc ((pyLowerChar_eq_nonletter c ch hch hch2).mp hcontra)
      simp only [splitAtFirst, if_neg hc, if_neg hc2, ih]
      cases splitAtFirst ch cs with
      | none => rfl
      | some p => rfl

theorem splitScheme_none_pyLower (pa : Chars) (h : splitScheme pa = ([], pa)) :
    splitScheme (pyLower pa) = ([], pyLower pa) := by
  cases hs : splitAtFirst ':' pa with
  | none =>
    apply splitScheme_eq_of_none
    rw [splitAtFirst_pyLower ':' pa (by decide) (by decide), hs]
    rfl
  | some p =>
    rcases p with ⟨pre, post⟩
    have hlow : splitAtFirst ':' (pyLower pa) = some (pyLower pre, pyLower post) := by
      rw [splitAtFirst_pyLower ':' pa (by decide) (by decide), hs]
      rfl
    cases hp : pre with
    | nil =>
      apply splitScheme_eq_of_nil _ (pyLower post)
      rw [hlow, hp]
      rfl
    | cons c t =>
      rw [hp, pyLower_cons] at hlow
      apply splitScheme_eq_of_neg _ (pyLower post) (pyLowerChar c) (pyLower t) hlow
      intro hcond
      simp only [Bool.and_eq_true] at hcond
      have halpha : c.isAlpha = true := by
        rw [← pyLowerChar_isAlpha]
        exact hcond.1
      have hall : (c :: t).all isSchemeChar = true := by
        have h2 := hcond.2
        rw [← pyLower_cons] at h2
        rw [List.all_eq_true] at h2 ⊢
        intro x hx
        have h3 := h2 (pyLowerChar x) (by
          simp only [pyLower, List.mem_map]
          exact ⟨x, hx, rfl⟩)
        rwa [pyLowerChar_isSchemeChar] at h3
      have hacc : splitScheme pa = (pyLower (c :: t), post) := by
        apply splitScheme_eq_of_pos pa post c t (hp ▸ hs)
        simp only [Bool.and_eq_true]
        exact ⟨halpha, hall⟩
      rw [h] at hacc
      have hfst : ([] : Chars) = pyLower (c :: t) := congrArg Prod.fst hacc
      simp [pyLower] at hfst

/-! ### The netloc, fragment and query stages -/

theorem netlocSplitOf_spec (u : Chars) :
    ((schemeSplitOf u).2.take 2 = ['/', '/'] ∧
      (schemeSplitOf u).2 = '/' :: '/' :: ((netlocSplitOf u).1 ++ (netlocSplitOf u).2) ∧
      (∀ c ∈ (netlocSplitOf u).1, ¬(c = '/' ∨ c = '?' ∨ c = '#')) ∧
      ((netlocSplitOf u).2 = [] ∨
        ∃ c t, (netlocSplitOf u).2 = c :: t ∧ (c = '/' ∨ c = '?' ∨ c = '#'))) ∨
    ((netlocSplitOf u).1 = [] ∧ (netlocSplitOf u).2 = (schemeSplitOf u).2 ∧
      ¬ (schemeSplitOf u).2.take 2 = ['/', '/']) := by
  by_cases h : (schemeSplitOf u).2.take 2 = ['/', '/']
  · left
    have e1 : netlocSplitOf u = netlocSpan ((schemeSplitOf u).2.drop 2) := by
      unfold netlocSplitOf
      rw [if_pos h]
    refine ⟨h, ?_, ?_, ?_⟩
    · conv_lhs => rw [← List.take_append_drop 2 (schemeSplitOf u).2]
      rw [h, e1, netlocSpan_append_eq]
      rfl
    · rw [e1]
      exact netlocSpan_fst_not_delim _
    · rw [e1]
      exact netlocSpan_snd_head _
  · right
    have e1 : netlocSplitOf u = ([], (schemeSplitOf u).2) := by
      unfold netlocSplitOf
      rw [if_neg h]
    rw [e1]
    exact ⟨rfl, rfl, h⟩

theorem fragSplitOf_decomp (u : Chars) :
    (∃ t, (fragSplitOf u).1 ++ t = (netlocSplitOf u).2) ∧
      ('#' : Char) ∉ (fragSplitOf u).1 := by
  unfold fragSplitOf
  cases hs : splitAtFirst '#' (netlocSplitOf u).2 with
  | none =>
    exact ⟨⟨[], by simp⟩, (splitAtFirst_eq_none '#' _).mp hs⟩
  | some p =>
    rcases p with ⟨a, b⟩
    obtain ⟨hx, hna⟩ := splitAtFirst_eq_some '#' _ a b hs
    exact ⟨⟨'#' :: b, hx.symm⟩, hna⟩

theorem querySplitOf_decomp (u : Chars) :
    (∃ t, (querySplitOf u).1 ++ t = (fragSplitOf u).1) ∧
      ('?' : Char) ∉ (querySplitOf u).1 := by
  unfold querySplitOf
  cases hs : splitAtFirst '?' (fragSplitOf u).1 with
  | none =>
    exact ⟨⟨[], by simp⟩, (splitAtFirst_eq_none '?' _).mp hs⟩
  | some p =>
    rcases p with ⟨a, b⟩
    obtain ⟨hx, hna⟩ := splitAtFirst_eq_some '?' _ a b hs
    exact ⟨⟨'?' :: b, hx.symm⟩, hna⟩

theorem urlsplit_some_eq (u : Chars) (s : SplitResult) (h : urlsplit u = some s) :
    s = ⟨(schemeSplitOf u).1, (netlocSplitOf u).1, (querySplitOf u).1,
      (querySplitOf u).2, (fragSplitOf u).2⟩ := by
  unfold urlsplit at h
  by_cases h1 : bracketsMismatched (netlocSplitOf u).1 = true
  · rw [if_pos h1] at h
    exact absurd h (by simp)
  · rw [Bool.not_eq_true] at h1
    rw [if_neg (by rw [h1]; exact Bool.false_ne_true)] at h
    by_cases h2 : (('[' : Char) ∈ (netlocSplitOf u).1 ∧ (']' : Char) ∈ (netlocSplitOf u).1) ∧
        check_bracketed_host (bracketedHostOf (netlocSplitOf u).1) = false
    · rw [if_pos h2] at h
      exact absurd h (by simp)
    · rw [if_neg h2] at h
      by_cases h3 : checknetloc_rejects (netlocSplitOf u).1 = true
      · rw [if_pos h3] at h
        exact absurd h (by simp)
      · rw [if_neg h3] at h
        simp only [Option.some.injEq] at h
        exact h.symm

/-! ### Membership flow from the raw URL into the parse components -/

theorem schemeSplit_snd_suffix (u : Chars) :
    ∃ t, t ++ (schemeSplitOf u).2 = cleanedUrl u := by
  rcases splitScheme_spec (cleanedUrl u) with h | ⟨pre, post, hw, -, -, -, -, h⟩
  · exact ⟨[], by rw [List.nil_append]; unfold schemeSplitOf; rw [h]⟩
  · refine ⟨pre ++ [':'], ?_⟩
    unfold schemeSplitOf
    rw [h]
    simp only []
    rw [hw]
    simp

theorem mem_rest2_cleaned (u : Chars) (c : Char) (h : c ∈ (netlocSplitOf u).2) :
    c ∈ cleanedUrl u := by
  obtain ⟨t, ht⟩ := schemeSplit_snd_suffix u
  rw [← ht]
  rcases netlocSplitOf_spec u with ⟨-, he, -, -⟩ | ⟨-, he, -⟩
  · apply List.mem_append_right
    rw [he]
    exact List.mem_cons_of_mem _ (List.mem_cons_of_mem _ (List.mem_append_right _ h))
  · apply List.mem_append_right
    rw [← he]
    exact h

theorem mem_netloc_cleaned (u : Chars) (c : Char) (h : c ∈ (netlocSplitOf u).1) :
    c ∈ cleanedUrl u := by
  obtain ⟨t, ht⟩ := schemeSplit_snd_suffix u
  rw [← ht]
  rcases netlocSplitOf_spec u with ⟨-, he, -, -⟩ | ⟨hnil, -, -⟩
  · apply List.mem_append_right
    rw [he]
    exact List.mem_cons_of_mem _ (List.mem_cons_of_mem _ (List.mem_append_left _ h))
  · rw [hnil] at h
    simp at h

theorem mem_path_rest2 (u : Chars) (c : Char) (h : c ∈ (querySplitOf u).1) :
    c ∈ (netlocSplitOf u).2 := by
  obtain ⟨⟨t1, ht1⟩, -⟩ := querySplitOf_decomp u
  obtain ⟨⟨t2, ht2⟩, -⟩ := fragSplitOf_decomp u
  rw [← ht2, ← ht1]
  exact List.mem_append_left _ (List.mem_append_left _ h)

theorem mem_path_raw (u : Chars) (c : Char) (h : c ∈ (querySplitOf u).1) : c ∈ u :=
  mem_cleanedUrl u c (mem_rest2_cleaned u c (mem_path_rest2 u c h))

/-- The path is a prefix of the post-netloc remainder, so a non-empty path
starts with the remainder's first character. -/
theorem path_head (u : Chars) :
    (querySplitOf u).1 = [] ∨ (querySplitOf u).1.head? = (netlocSplitOf u).2.head? := by
  cases hq : (querySplitOf u).1 with
  | nil => exact Or.inl rfl
  | cons c t =>
    right
    obtain ⟨⟨t1, ht1⟩, -⟩ := querySplitOf_decomp u
    obtain ⟨⟨t2, ht2⟩, -⟩ := fragSplitOf_decomp u
    rw [← ht2, ← ht1, hq]
    simp

/-! ### Unfolding urlparse and normalize, and lower-casing the rebuild -/

theorem urlparse_eq_of_no_semi (u : Chars) (s : SplitResult) (h : urlsplit u = some s)
    (hsemi : (';' : Char) ∉ s.path) :
    urlparse u = some ⟨s.scheme, s.netloc, s.path, [], s.query, s.fragment⟩ := by
  unfold urlparse
  rw [h]
  simp only []
  rw [if_neg]
  intro hc
  exact hsemi hc.2

theorem normalize_of_parse (u : Chars) (p : ParseResult) (h : urlparse u = some p) :
    normalize_url u =
      some (pyLower (urlunparse ⟨p.scheme, p.netloc, rstripSlash p.path, p.params, [], []⟩)) := by
  unfold normalize_url
  rw [h]

theorem pyLower_eq_slash_pair (x : Chars) : pyLower x = ['/', '/'] ↔ x = ['/', '/'] := by
  constructor
  · intro h
    cases x with
    | nil => simp [pyLower] at h
    | cons a y =>
      cases y with
      | nil => simp [pyLower] at h
      | cons b z =>
        cases z with
        | nil =>
          simp only [pyLower, List.map_cons, List.map_nil, List.cons.injEq, and_true] at h
          rw [(pyLowerChar_eq_nonletter a '/' (by decide) (by decide)).mp h.1,
              (pyLowerChar_eq_nonletter b '/' (by decide) (by decide)).mp h.2]
        | cons c w => simp [pyLower] at h
  · intro h
    rw [h]
    rfl

theorem pyLower_eq_slash_single (x : Chars) : pyLower x = ['/'] ↔ x = ['/'] := by
  constructor
  · intro h
    cases x with
    | nil => simp [pyLower] at h
    | cons a y =>
      cases y with
      | nil =>
        simp only [pyLower, List.map_cons, List.map_nil, List.cons.injEq, and_true] at h
        rw [(pyLowerChar_eq_nonletter a '/' (by decide) (by decide)).mp h]
      | cons b z => simp [pyLower] at h
  · intro h
    rw [h]
    rfl

theorem pyLower_take_pair (pa : Chars) :
    (pyLower pa).take 2 = ['/', '/'] ↔ pa.take 2 = ['/', '/'] := by
  rw [pyLower, ← List.map_take]
  exact pyLower_eq_slash_pair _

theorem pyLower_take_single (pa : Chars) :
    (pyLower pa).take 1 = ['/'] ↔ pa.take 1 = ['/'] := by
  rw [pyLower, ← List.map_take]
  exact pyLower_eq_slash_single _

theorem pyLower_getLast (l : Chars) : (pyLower l).getLast? = l.getLast?.map pyLowerChar :=
  List.getLast?_map pyLowerChar l

/-- `urlunsplit` with empty query and fragment. -/
theorem urlunsplit_nq (s nl pa : Chars) :
    urlunsplit s nl pa [] [] =
      (if s ≠ [] then
        s ++ ':' ::
          (if nl ≠ [] ∨ (s ≠ [] ∧ s ∈ uses_netloc ∧ pa.take 2 ≠ ['/', '/']) then
            ('/' :: '/' :: nl) ++ (if pa ≠ [] ∧ pa.take 1 ≠ ['/'] then '/' :: pa else pa)
          else pa)
      else
        (if nl ≠ [] ∨ (s ≠ [] ∧ s ∈ uses_netloc ∧ pa.take 2 ≠ ['/', '/']) then
          ('/' :: '/' :: nl) ++ (if pa ≠ [] ∧ pa.take 1 ≠ ['/'] then '/' :: pa else pa)
        else pa)) := by
  unfold urlunsplit
  simp

theorem pyLower_urlunsplit (s nl pa : Chars) (hs : pyLower s = s) :
    pyLower (urlunsplit s nl pa [] []) = urlunsplit s (pyLower nl) (pyLower pa) [] [] := by
  rw [urlunsplit_nq, urlunsplit_nq]
  have hnil : (pyLower nl ≠ []) ↔ (nl ≠ []) := by
    rw [not_iff_not]
    exact pyLower_eq_nil nl
  have htake2 : ((pyLower pa).take 2 ≠ ['/', '/']) ↔ (pa.take 2 ≠ ['/', '/']) := by
    rw [not_iff_not]
    exact pyLower_take_pair pa
  have hpanil : (pyLower pa ≠ []) ↔ (pa ≠ []) := by
    rw [not_iff_not]
    exact pyLower_eq_nil pa
  have htake1 : ((pyLower pa).take 1 ≠ ['/']) ↔ (pa.take 1 ≠ ['/']) := by
    rw [not_iff_not]
    exact pyLower_take_single pa
  have hcolon : pyLowerChar ':' = ':' := by decide
  have hslash : pyLowerChar '/' = '/' := by decide
  by_cases hbig : nl ≠ [] ∨ (s ≠ [] ∧ s ∈ uses_netloc ∧ pa.take 2 ≠ ['/', '/'])
  · have hbig2 : pyLower nl ≠ [] ∨ (s ≠ [] ∧ s ∈ uses_netloc ∧ (pyLower pa).take 2 ≠ ['/', '/']) := by
      rcases hbig with h | ⟨ha, hb, hc⟩
      · exact Or.inl (hnil.mpr h)
      · exact Or.inr ⟨ha, hb, htake2.mpr hc⟩
    rw [if_pos hbig, if_pos hbig2]
    by_cases hms : pa ≠ [] ∧ pa.take 1 ≠ ['/']
    · have hms2 : pyLower pa ≠ [] ∧ (pyLower pa).take 1 ≠ ['/'] :=
        ⟨hpanil.mpr hms.1, htake1.mpr hms.2⟩
      rw [if_pos hms, if_pos hms2]
      by_cases hs0 : s ≠ []
      · rw [if_pos hs0, if_pos hs0]
        simp [pyLower_append, pyLower_cons, hs, hcolon, hslash]
      · rw [if_neg hs0, if_neg hs0]
        simp [pyLower_append, pyLower_cons, hcolon, hslash]
    · have hms2 : ¬(pyLower pa ≠ [] ∧ (pyLower pa).take 1 ≠ ['/']) := by
        intro hc
        exact hms ⟨hpanil.mp hc.1, htake1.mp hc.2⟩
      rw [if_neg hms, if_neg hms2]
      by_cases hs0 : s ≠ []
      · rw [if_pos hs0, if_pos hs0]
        simp [pyLower_append, pyLower_cons, hs, hcolon, hslash]
      · rw [if_neg hs0, if_neg hs0]
        simp [pyLower_append, pyLower_cons, hcolon, hslash]
  · have hbig2 : ¬(pyLower nl ≠ [] ∨ (s ≠ [] ∧ s ∈ uses_netloc ∧ (pyLower pa).take 2 ≠ ['/', '/'])) := by
      intro hc
      rcases hc with h | ⟨ha, hb, hc⟩
      · exact hbig (Or.inl (hnil.mp h))
      · exact hbig (Or.inr ⟨ha, hb, htake2.mp hc⟩)
    rw [if_neg hbig, if_neg hbig2]
    by_cases hs0 : s ≠ []
    · rw [if_pos hs0, if_pos hs0]
      simp [pyLower_append, pyLower_cons, hs, hcolon]
    · rw [if_neg hs0, if_neg hs0]

theorem pyLower_urlunsplit_fixed (s nl pa : Chars) (hs : pyLower s = s)
    (hnl : pyLower nl = nl) (hpa : pyLower pa = pa) :
    pyLower (urlunsplit s nl pa [] []) = urlunsplit s nl pa [] [] := by
  rw [pyLower_urlunsplit s nl pa hs, hnl, hpa]

/-- Every character of the rebuilt URL is a scheme, netloc or path
character, or one of the inserted delimiters. -/
theorem mem_urlunsplit (s nl pa : Chars) (c : Char)
    (h : c ∈ urlunsplit s nl pa [] []) :
    c ∈ s ∨ c ∈ nl ∨ c ∈ pa ∨ c = ':' ∨ c = '/' := by
  rw [urlunsplit_nq] at h
  by_cases hs0 : s ≠ []
  · rw [if_pos hs0] at h
    rcases List.mem_append.mp h with h2 | h2
    · exact Or.inl h2
    · rcases List.mem_cons.mp h2 with h3 | h3
      · exact Or.inr (Or.inr (Or.inr (Or.inl h3)))
      · by_cases hbig : nl ≠ [] ∨ (s ≠ [] ∧ s ∈ uses_netloc ∧ pa.take 2 ≠ ['/', '/'])
        · rw [if_pos hbig] at h3
          rcases List.mem_append.mp h3 with h4 | h4
          · rcases List.mem_cons.mp h4 with h5 | h5
            · exact Or.inr (Or.inr (Or.inr (Or.inr h5)))
            · rcases List.mem_cons.mp h5 with h6 | h6
              · exact Or.inr (Or.inr (Or.inr (Or.inr h6)))
              · exact Or.inr (Or.inl h6)
          · by_cases hms : pa ≠ [] ∧ pa.take 1 ≠ ['/']
            · rw [if_pos hms] at h4
              rcases List.mem_cons.mp h4 with h5 | h5
              · exact Or.inr (Or.inr (Or.inr (Or.inr h5)))
              · exact Or.inr (Or.inr (Or.inl h5))
            · rw [if_neg hms] at h4
              exact Or.inr (Or.inr (Or.inl h4))
        · rw [if_neg hbig] at h3
          exact Or.inr (Or.inr (Or.inl h3))
  · rw [if_neg hs0] at h
    by_cases hbig : nl ≠ [] ∨ (s ≠ [] ∧ s ∈ uses_netloc ∧ pa.take 2 ≠ ['/', '/'])
    · rw [if_pos hbig] at h
      rcases List.mem_append.mp h with h4 | h4
      · rcases List.mem_cons.mp h4 with h5 | h5
        · exact Or.inr (Or.inr (Or.inr (Or.inr h5)))
        · rcases List.mem_cons.mp h5 with h6 | h6
          · exact Or.inr (Or.inr (Or.inr (Or.inr h6)))
          · exact Or.inr (Or.inl h6)
      · by_cases hms : pa ≠ [] ∧ pa.take 1 ≠ ['/']
        · rw [if_pos hms] at h4
          rcases List.mem_cons.mp h4 with h5 | h5
          · exact Or.inr (Or.inr (Or.inr (Or.inr h5)))
          · exact Or.inr (Or.inr (Or.inl h5))
        · rw [if_neg hms] at h4
          exact Or.inr (Or.inr (Or.inl h4))
    · rw [if_neg hbig] at h
      exact Or.inr (Or.inr (Or.inl h))

/-! ### Computing the split stages on a canonical rebuilt URL -/

theorem schemeSplitOf_of_clean (v : Chars) (h : cleanedUrl v = v) :
    schemeSplitOf v = splitScheme v := by
  unfold schemeSplitOf
  rw [h]

theorem netlocSplitOf_eq (v s r : Chars) (h : schemeSplitOf v = (s, r)) :
    netlocSplitOf v = if r.take 2 = ['/', '/'] then netlocSpan (r.drop 2) else ([], r) := by
  unfold netlocSplitOf
  rw [h]

theorem fragSplitOf_eq_none (v nl r2 : Chars) (h : netlocSplitOf v = (nl, r2))
    (hf : ('#' : Char) ∉ r2) : fragSplitOf v = (r2, []) := by
  have h2 : (netlocSplitOf v).2 = r2 := by rw [h]
  unfold fragSplitOf
  rw [h2, (splitAtFirst_eq_none '#' r2).mpr hf]

theorem querySplitOf_eq_none (v pa1 : Chars) (h : (fragSplitOf v).1 = pa1)
    (hq : ('?' : Char) ∉ pa1) : querySplitOf v = (pa1, []) := by
  unfold querySplitOf
  rw [h, (splitAtFirst_eq_none '?' pa1).mpr hq]

theorem urlsplit_of_stages (v s nl pa1 r2 : Chars)
    (hs : (schemeSplitOf v).1 = s)
    (hn : netlocSplitOf v = (nl, r2))
    (hfr : fragSplitOf v = (r2, []))
    (hq : querySplitOf v = (pa1, []))
    (hb1 : ('[' : Char) ∉ nl) (hb2 : (']' : Char) ∉ nl)
    (hnb : ∀ c ∈ nl, isBadNFKCChar c = false) :
    urlsplit v = some ⟨s, nl, pa1, [], []⟩ := by
  have hn1 : (netlocSplitOf v).1 = nl := by rw [hn]
  have hq1 : (querySplitOf v).1 = pa1 := by rw [hq]
  have hq2 : (querySplitOf v).2 = [] := by rw [hq]
  have hf2 : (fragSplitOf v).2 = [] := by rw [hfr]
  have hbm : bracketsMismatched nl = false := by
    unfold bracketsMismatched
    simp [hb1, hb2]
  have hcn : checknetloc_rejects nl = false := by
    unfold checknetloc_rejects
    have hany : (nl.filter (fun c => !(c == '@' || c == ':' || c == '#' || c == '?'))).any
        isBadNFKCChar = false := by
      apply List.any_eq_false.mpr
      intro x hx
      rw [hnb x (List.mem_of_mem_filter hx)]
      exact Bool.false_ne_true
    rw [hany, Bool.and_false]
  unfold urlsplit
  rw [hn1, hq1, hq2, hf2, hs, hbm, hcn]
  rw [if_neg Bool.false_ne_true]
  rw [if_neg (fun hc => hb1 hc.1.1)]
  rw [if_neg Bool.false_ne_true]

theorem urlunparse_no_params (s nl pa q f : Chars) :
    urlunparse ⟨s, nl, pa, [], q, f⟩ = urlunsplit s nl pa q f := by
  unfold urlunparse
  simp

theorem isBadNFKCChar_gt127 (c : Char) (h : isBadNFKCChar c = true) : 127 < c.toNat := by
  simp only [isBadNFKCChar, List.mem_cons, List.not_mem_nil, or_false,
    decide_eq_true_eq] at h
  rcases h with h|h|h|h|h|h|h|h|h|h|h|h|h|h|h|h|h|h|h <;> omega

/-- A netloc accepted by `urlsplit` contains none of the characters whose
NFKC normalization introduces a URL delimiter. -/
theorem urlsplit_no_bad (u : Chars) (s : SplitResult) (h : urlsplit u = some s) :
    ∀ c ∈ (netlocSplitOf u).1, isBadNFKCChar c = false := by
  intro c hc
  by_contra hbad
  rw [Bool.not_eq_false] at hbad
  have hgt : 127 < c.toNat := isBadNFKCChar_gt127 c hbad
  have hne : ∀ d : Char, d.toNat ≤ 127 → c ≠ d := by
    intro d hd heq
    rw [heq] at hgt
    omega
  have hrej : checknetloc_rejects (netlocSplitOf u).1 = true := by
    unfold checknetloc_rejects
    simp only [Bool.and_eq_true]
    refine ⟨⟨?_, ?_⟩, ?_⟩
    · rw [decide_eq_true_eq]
      intro hnil
      rw [hnil] at hc
      exact absurd hc (List.not_mem_nil c)
    · rw [Bool.not_eq_true']
      have hall : ((netlocSplitOf u).1.all (fun c => decide (c.toNat ≤ 127))) = false := by
        by_contra hcon
        rw [Bool.not_eq_false] at hcon
        have h2 := List.all_eq_true.mp hcon c hc
        rw [decide_eq_true_eq] at h2
        omega
      exact hall
    · apply List.any_eq_true.mpr
      refine ⟨c, ?_, hbad⟩
      apply List.mem_filter.mpr
      refine ⟨hc, ?_⟩
      simp only [Bool.not_eq_true', Bool.or_eq_false_iff, beq_eq_false_iff_ne]
      exact ⟨⟨⟨hne '@' (by decide), hne ':' (by decide)⟩, hne '#' (by decide)⟩,
        hne '?' (by decide)⟩
  unfold urlsplit at h
  by_cases h1 : bracketsMismatched (netlocSplitOf u).1 = true
  · rw [if_pos h1] at h
    exact absurd h (by simp)
  · rw [if_neg h1] at h
    by_cases h2 : (('[' : Char) ∈ (netlocSplitOf u).1 ∧ (']' : Char) ∈ (netlocSplitOf u).1) ∧
        check_bracketed_host (bracketedHostOf (netlocSplitOf u).1) = false
    · rw [if_pos h2] at h
      exact absurd h (by simp)
    · rw [if_neg h2] at h
      rw [if_pos hrej] at h
      exact absurd h (by simp)

/-- A canonically rebuilt URL whose netloc branch was taken is a fixed
point of `normalize_url`: re-parsing reproduces the same scheme, netloc
and path. -/
theorem reparse_fixed_netloc (s nl mb : Chars)
    (hs_low : pyLower s = s)
    (hs_shape : s = [] ∨ ((∃ c t, s = c :: t ∧ c.isAlpha = true) ∧ s.all isSchemeChar = true))
    (hnl_low : pyLower nl = nl)
    (hnl_delim : ∀ c ∈ nl, ¬(c = '/' ∨ c = '?' ∨ c = '#'))
    (hb1 : ('[' : Char) ∉ nl) (hb2 : (']' : Char) ∉ nl)
    (hnb : ∀ c ∈ nl, isBadNFKCChar c = false)
    (hmb_low : pyLower mb = mb)
    (hmb_chars : ∀ c ∈ mb, ¬(c = '#' ∨ c = '?' ∨ c = ';'))
    (hmb_last : mb.getLast? ≠ some '/')
    (hmb_head : mb = [] ∨ ∃ t, mb = '/' :: t)
    (hsafe_s : ∀ c ∈ s, ¬(c = '\t' ∨ c = '\r' ∨ c = '\n'))
    (hsafe_nl : ∀ c ∈ nl, ¬(c = '\t' ∨ c = '\r' ∨ c = '\n'))
    (hsafe_mb : ∀ c ∈ mb, ¬(c = '\t' ∨ c = '\r' ∨ c = '\n'))
    (hcond : nl ≠ [] ∨ (s ≠ [] ∧ s ∈ uses_netloc ∧ mb.take 2 ≠ ['/', '/'])) :
    normalize_url (if s ≠ [] then s ++ ':' :: (('/' :: '/' :: nl) ++ mb)
        else ('/' :: '/' :: nl) ++ mb) =
      some (if s ≠ [] then s ++ ':' :: (('/' :: '/' :: nl) ++ mb)
        else ('/' :: '/' :: nl) ++ mb) := by
  have hw2 : (('/' :: '/' :: nl) ++ mb).take 2 = ['/', '/'] := rfl
  have hwd : (('/' :: '/' :: nl) ++ mb).drop 2 = nl ++ mb := rfl
  have hspan : netlocSpan (nl ++ mb) = (nl, mb) := by
    apply netlocSpan_of nl mb hnl_delim
    rcases hmb_head with h | ⟨t, h⟩
    · exact Or.inl h
    · exact Or.inr ⟨'/', t, h, Or.inl rfl⟩
  have hhash : ('#' : Char) ∉ mb := fun hc => hmb_chars '#' hc (Or.inl rfl)
  have hquest : ('?' : Char) ∉ mb := fun hc => hmb_chars '?' hc (Or.inr (Or.inl rfl))
  have hsemi2 : (';' : Char) ∉ mb := fun hc => hmb_chars ';' hc (Or.inr (Or.inr rfl))
  have hmb_slash : ¬(mb ≠ [] ∧ mb.take 1 ≠ ['/']) := by
    rcases hmb_head with h | ⟨t, h⟩
    · intro hc
      exact hc.1 h
    · intro hc
      apply hc.2
      rw [h]
      rfl
  have hsafe_w : ∀ c ∈ ('/' :: '/' :: nl) ++ mb, ¬(c = '\t' ∨ c = '\r' ∨ c = '\n') := by
    intro c hc
    rcases List.mem_append.mp hc with h | h
    · rcases List.mem_cons.mp h with h1 | h1
      · subst h1
        decide
      · rcases List.mem_cons.mp h1 with h2 | h2
        · subst h2
          decide
        · exact hsafe_nl c h2
    · exact hsafe_mb c h
  by_cases hs0 : s = []
  · subst hs0
    have hnl_ne : nl ≠ [] := by
      rcases hcond with h | ⟨h, -, -⟩
      · exact h
      · exact absurd rfl h
    rw [if_neg (fun hc => hc rfl)]
    have hclean : cleanedUrl (('/' :: '/' :: nl) ++ mb) = ('/' :: '/' :: nl) ++ mb := by
      apply cleanedUrl_fixed
      · exact Or.inr ⟨'/', ('/' :: nl) ++ mb, rfl, by decide⟩
      · exact hsafe_w
    have hscheme : splitScheme (('/' :: '/' :: nl) ++ mb) = ([], ('/' :: '/' :: nl) ++ mb) :=
      splitScheme_head_notalpha '/' (('/' :: nl) ++ mb) (by decide) (by decide)
    have hss : schemeSplitOf (('/' :: '/' :: nl) ++ mb) = ([], ('/' :: '/' :: nl) ++ mb) := by
      rw [schemeSplitOf_of_clean _ hclean, hscheme]
    have hnet : netlocSplitOf (('/' :: '/' :: nl) ++ mb) = (nl, mb) := by
      rw [netlocSplitOf_eq _ _ _ hss, if_pos hw2, hwd, hspan]
    have hfrag : fragSplitOf (('/' :: '/' :: nl) ++ mb) = (mb, []) :=
      fragSplitOf_eq_none _ nl mb hnet hhash
    have hquery : querySplitOf (('/' :: '/' :: nl) ++ mb) = (mb, []) :=
      querySplitOf_eq_none _ mb (by rw [hfrag]) hquest
    have hsplit : urlsplit (('/' :: '/' :: nl) ++ mb) = some ⟨[], nl, mb, [], []⟩ :=
      urlsplit_of_stages _ [] nl mb mb (by rw [hss]) hnet hfrag hquery hb1 hb2 hnb
    have hparse : urlparse (('/' :: '/' :: nl) ++ mb) = some ⟨[], nl, mb, [], [], []⟩ :=
      urlparse_eq_of_no_semi _ _ hsplit hsemi2
    rw [normalize_of_parse _ _ hparse]
    show some (pyLower (urlunparse ⟨[], nl, rstripSlash mb, [], [], []⟩)) =
      some (('/' :: '/' :: nl) ++ mb)
    rw [urlunparse_no_params, rstripSlash_eq_self mb hmb_last,
        pyLower_urlunsplit_fixed [] nl mb rfl hnl_low hmb_low, urlunsplit_nq]
    rw [if_pos (Or.inl hnl_ne), if_neg hmb_slash, if_neg (fun hc => hc rfl)]
  · rw [if_pos hs0]
    obtain ⟨⟨c, t, hst, hca⟩, hall⟩ := hs_shape.resolve_left hs0
    have hclean : cleanedUrl (s ++ ':' :: (('/' :: '/' :: nl) ++ mb)) =
        s ++ ':' :: (('/' :: '/' :: nl) ++ mb) := by
      apply cleanedUrl_fixed
      · right
        refine ⟨c, t ++ ':' :: (('/' :: '/' :: nl) ++ mb), ?_, isAlpha_gt32 c hca⟩
        rw [hst]
        rfl
      · intro d hd
        rcases List.mem_append.mp hd with h | h
        · exact hsafe_s d h
        · rcases List.mem_cons.mp h with h1 | h1
          · subst h1
            decide
          · exact hsafe_w d h1
    have hscheme : splitScheme (s ++ ':' :: (('/' :: '/' :: nl) ++ mb)) =
        (s, ('/' :: '/' :: nl) ++ mb) := by
      rw [splitScheme_accept s _ ⟨c, t, hst, hca⟩ hall, hs_low]
    have hss : schemeSplitOf (s ++ ':' :: (('/' :: '/' :: nl) ++ mb)) =
        (s, ('/' :: '/' :: nl) ++ mb) := by
      rw [schemeSplitOf_of_clean _ hclean, hscheme]
    have hnet : netlocSplitOf (s ++ ':' :: (('/' :: '/' :: nl) ++ mb)) = (nl, mb) := by
      rw [netlocSplitOf_eq _ _ _ hss, if_pos hw2, hwd, hspan]
    have hfrag : fragSplitOf (s ++ ':' :: (('/' :: '/' :: nl) ++ mb)) = (mb, []) :=
      fragSplitOf_eq_none _ nl mb hnet hhash
    have hquery : querySplitOf (s ++ ':' :: (('/' :: '/' :: nl) ++ mb)) = (mb, []) :=
      querySplitOf_eq_none _ mb (by rw [hfrag]) hquest
    have hsplit : urlsplit (s ++ ':' :: (('/' :: '/' :: nl) ++ mb)) =
        some ⟨s, nl, mb, [], []⟩ :=
      urlsplit_of_stages _ s nl mb mb (by rw [hss]) hnet hfrag hquery hb1 hb2 hnb
    have hparse : urlparse (s ++ ':' :: (('/' :: '/' :: nl) ++ mb)) =
        some ⟨s, nl, mb, [], [], []⟩ :=
      urlparse_eq_of_no_semi _ _ hsplit hsemi2
    rw [normalize_of_parse _ _ hparse]
    show some (pyLower (urlunparse ⟨s, nl, rstripSlash mb, [], [], []⟩)) =
      some (s ++ ':' :: (('/' :: '/' :: nl) ++ mb))
    rw [urlunparse_no_params, rstripSlash_eq_self mb hmb_last,
        pyLower_urlunsplit_fixed s nl mb hs_low hnl_low hmb_low, urlunsplit_nq]
    rw [if_pos hcond, if_neg hmb_slash, if_pos hs0]

/-- A canonically rebuilt URL whose netloc branch was not taken is a
fixed point of `normalize_url`, provided the path does not begin with
`//` (the case the code's rebuild cannot reproduce faithfully). -/
theorem reparse_fixed_plain (s pa : Chars)
    (hs_low : pyLower s = s)
    (hs_shape : s = [] ∨ ((∃ c t, s = c :: t ∧ c.isAlpha = true) ∧ s.all isSchemeChar = true))
    (hpa_low : pyLower pa = pa)
    (hpa_chars : ∀ c ∈ pa, ¬(c = '#' ∨ c = '?' ∨ c = ';'))
    (hpa_last : pa.getLast? ≠ some '/')
    (hpa_scheme : s = [] → splitScheme pa = ([], pa))
    (hpa_head : s = [] → (pa = [] ∨ ∃ c t, pa = c :: t ∧ 32 < c.toNat))
    (hsafe_s : ∀ c ∈ s, ¬(c = '\t' ∨ c = '\r' ∨ c = '\n'))
    (hsafe_pa : ∀ c ∈ pa, ¬(c = '\t' ∨ c = '\r' ∨ c = '\n'))
    (hpa2 : pa.take 2 ≠ ['/', '/'])
    (hnotun : s = [] ∨ s ∉ uses_netloc) :
    normalize_url (if s ≠ [] then s ++ ':' :: pa else pa) =
      some (if s ≠ [] then s ++ ':' :: pa else pa) := by
  have hhash : ('#' : Char) ∉ pa := fun hc => hpa_chars '#' hc (Or.inl rfl)
  have hquest : ('?' : Char) ∉ pa := fun hc => hpa_chars '?' hc (Or.inr (Or.inl rfl))
  have hsemi2 : (';' : Char) ∉ pa := fun hc => hpa_chars ';' hc (Or.inr (Or.inr rfl))
  by_cases hs0 : s = []
  · subst hs0
    rw [if_neg (fun hc => hc rfl)]
    have hclean : cleanedUrl pa = pa := cleanedUrl_fixed pa (hpa_head rfl) hsafe_pa
    have hss : schemeSplitOf pa = ([], pa) := by
      rw [schemeSplitOf_of_clean _ hclean, hpa_scheme rfl]
    have hnet : netlocSplitOf pa = ([], pa) := by
      rw [netlocSplitOf_eq _ _ _ hss, if_neg hpa2]
    have hfrag : fragSplitOf pa = (pa, []) :=
      fragSplitOf_eq_none _ [] pa hnet hhash
    have hquery : querySplitOf pa = (pa, []) :=
      querySplitOf_eq_none _ pa (by rw [hfrag]) hquest
    have hsplit : urlsplit pa = some ⟨[], [], pa, [], []⟩ :=
      urlsplit_of_stages _ [] [] pa pa (by rw [hss]) hnet hfrag hquery (by simp) (by simp)
        (fun c hc => absurd hc (List.not_mem_nil c))
    have hparse : urlparse pa = some ⟨[], [], pa, [], [], []⟩ :=
      urlparse_eq_of_no_semi _ _ hsplit hsemi2
    rw [normalize_of_parse _ _ hparse]
    show some (pyLower (urlunparse ⟨[], [], rstripSlash pa, [], [], []⟩)) = some pa
    rw [urlunparse_no_params, rstripSlash_eq_self pa hpa_last,
        pyLower_urlunsplit_fixed [] [] pa rfl rfl hpa_low, urlunsplit_nq]
    have hcond2 : ¬(([] : Chars) ≠ [] ∨
        (([] : Chars) ≠ [] ∧ ([] : Chars) ∈ uses_netloc ∧ pa.take 2 ≠ ['/', '/'])) := by
      intro hc
      rcases hc with h | ⟨h, -⟩ <;> exact h rfl
    rw [if_neg hcond2, if_neg (fun hc => hc rfl)]
  · rw [if_pos hs0]
    obtain ⟨⟨c, t, hst, hca⟩, hall⟩ := hs_shape.resolve_left hs0
    have hnotun2 : s ∉ uses_netloc := hnotun.resolve_left hs0
    have hclean : cleanedUrl (s ++ ':' :: pa) = s ++ ':' :: pa := by
      apply cleanedUrl_fixed
      · right
        refine ⟨c, t ++ ':' :: pa, ?_, isAlpha_gt32 c hca⟩
        rw [hst]
        rfl
      · intro d hd
        rcases List.mem_append.mp hd with h | h
        · exact hsafe_s d h
        · rcases List.mem_cons.mp h with h1 | h1
          · subst h1
            decide
          · exact hsafe_pa d h1
    have hscheme : splitScheme (s ++ ':' :: pa) = (s, pa) := by
      rw [splitScheme_accept s _ ⟨c, t, hst, hca⟩ hall, hs_low]
    have hss : schemeSplitOf (s ++ ':' :: pa) = (s, pa) := by
      rw [schemeSplitOf_of_clean _ hclean, hscheme]
    have hnet : netlocSplitOf (s ++ ':' :: pa) = ([], pa) := by
      rw [netlocSplitOf_eq _ _ _ hss, if_neg hpa2]
    have hfrag : fragSplitOf (s ++ ':' :: pa) = (pa, []) :=
      fragSplitOf_eq_none _ [] pa hnet hhash
    have hquery : querySplitOf (s ++ ':' :: pa) = (pa, []) :=
      querySplitOf_eq_none _ pa (by rw [hfrag]) hquest
    have hsplit : urlsplit (s ++ ':' :: pa) = some ⟨s, [], pa, [], []⟩ :=
      urlsplit_of_stages _ s [] pa pa (by rw [hss]) hnet hfrag hquery (by simp) (by simp)
        (fun c hc => absurd hc (List.not_mem_nil c))
    have hparse : urlparse (s ++ ':' :: pa) = some ⟨s, [], pa, [], [], []⟩ :=
      urlparse_eq_of_no_semi _ _ hsplit hsemi2
    rw [normalize_of_parse _ _ hparse]
    show some (pyLower (urlunparse ⟨s, [], rstripSlash pa, [], [], []⟩)) =
      some (s ++ ':' :: pa)
    rw [urlunparse_no_params, rstripSlash_eq_self pa hpa_last,
        pyLower_urlunsplit_fixed s [] pa hs_low rfl hpa_low, urlunsplit_nq]
    have hcond2 : ¬(([] : Chars) ≠ [] ∨
        (s ≠ [] ∧ s ∈ uses_netloc ∧ pa.take 2 ≠ ['/', '/'])) := by
      intro hc
      rcases hc with h | ⟨-, h, -⟩
      · exact h rfl
      · exact hnotun2 h
    rw [if_neg hcond2, if_pos hs0]

/-- Canonical output of the normalizer is a fixed point of
`normalize_url`, provided an empty netloc does not sit before a path
starting with `//`. -/
theorem reparse_fixed (s nl pa : Chars)
    (hs_low : pyLower s = s)
    (hs_shape : s = [] ∨ ((∃ c t, s = c :: t ∧ c.isAlpha = true) ∧ s.all isSchemeChar = true))
    (hnl_low : pyLower nl = nl)
    (hnl_delim : ∀ c ∈ nl, ¬(c = '/' ∨ c = '?' ∨ c = '#'))
    (hb1 : ('[' : Char) ∉ nl) (hb2 : (']' : Char) ∉ nl)
    (hnb : ∀ c ∈ nl, isBadNFKCChar c = false)
    (hpa_low : pyLower pa = pa)
    (hpa_chars : ∀ c ∈ pa, ¬(c = '#' ∨ c = '?' ∨ c = ';'))
    (hpa_last : pa.getLast? ≠ some '/')
    (hpa_scheme : s = [] → nl = [] → splitScheme pa = ([], pa))
    (hpa_head : s = [] → nl = [] → (pa = [] ∨ ∃ c t, pa = c :: t ∧ 32 < c.toNat))
    (hsafe_s : ∀ c ∈ s, ¬(c = '\t' ∨ c = '\r' ∨ c = '\n'))
    (hsafe_nl : ∀ c ∈ nl, ¬(c = '\t' ∨ c = '\r' ∨ c = '\n'))
    (hsafe_pa : ∀ c ∈ pa, ¬(c = '\t' ∨ c = '\r' ∨ c = '\n'))
    (hbig2 : ¬(nl = [] ∧ pa.take 2 = ['/', '/'])) :
    normalize_url (urlunsplit s nl pa [] []) = some (urlunsplit s nl pa [] []) := by
  rw [urlunsplit_nq]
  by_cases hbig : nl ≠ [] ∨ (s ≠ [] ∧ s ∈ uses_netloc ∧ pa.take 2 ≠ ['/', '/'])
  · rw [if_pos hbig]
    by_cases hms : pa ≠ [] ∧ pa.take 1 ≠ ['/']
    · rw [if_pos hms]
      have h7 : pyLowerChar '/' = '/' := by decide
      apply reparse_fixed_netloc s nl ('/' :: pa) hs_low hs_shape hnl_low hnl_delim hb1 hb2 hnb
      · rw [pyLower_cons, hpa_low, h7]
      · intro c hc
        rcases List.mem_cons.mp hc with h | h
        · subst h
          decide
        · exact hpa_chars c h
      · cases hpa0 : pa with
        | nil => exact absurd hpa0 hms.1
        | cons d ds =>
          rw [List.getLast?_cons_cons, ← hpa0]
          exact hpa_last
      · exact Or.inr ⟨pa, rfl⟩
      · exact hsafe_s
      · exact hsafe_nl
      · intro c hc
        rcases List.mem_cons.mp hc with h | h
        · subst h
          decide
        · exact hsafe_pa c h
      · rcases hbig with h | ⟨h1, h2, h3⟩
        · exact Or.inl h
        · refine Or.inr ⟨h1, h2, ?_⟩
          intro hc
          rw [List.take_succ_cons] at hc
          simp only [List.cons.injEq, true_and] at hc
          exact hms.2 hc
    · rw [if_neg hms]
      have hpa_shape : pa = [] ∨ ∃ t, pa = '/' :: t := by
        rcases not_and_or.mp hms with h | h
        · exact Or.inl (not_not.mp h)
        · have h1 : pa.take 1 = ['/'] := not_not.mp h
          cases hpa0 : pa with
          | nil => exact Or.inl rfl
          | cons d ds =>
            right
            rw [hpa0, List.take_succ_cons, List.take_zero] at h1
            simp only [List.cons.injEq, and_true] at h1
            exact ⟨ds, by rw [h1]⟩
      exact reparse_fixed_netloc s nl pa hs_low hs_shape hnl_low hnl_delim hb1 hb2 hnb
        hpa_low hpa_chars hpa_last hpa_shape hsafe_s hsafe_nl hsafe_pa hbig
  · rw [if_neg hbig]
    have hnl0 : nl = [] := by
      by_contra h
      exact hbig (Or.inl h)
    subst hnl0
    have hpa2 : pa.take 2 ≠ ['/', '/'] := fun hc => hbig2 ⟨rfl, hc⟩
    have hnotun : s = [] ∨ s ∉ uses_netloc := by
      by_cases hs0 : s = []
      · exact Or.inl hs0
      · right
        intro hun
        exact hbig (Or.inr ⟨hs0, hun, hpa2⟩)
    exact reparse_fixed_plain s pa hs_low hs_shape hpa_low hpa_chars hpa_last
      (fun h => hpa_scheme h rfl) (fun h => hpa_head h rfl) hsafe_s hsafe_pa hpa2 hnotun

/-- A character of a lower-cased string is a character of the original
string, unless it is a lower-case letter produced by the casing. -/
theorem mem_pyLower_cases (l : Chars) (c : Char) (hc : c ∈ pyLower l) :
    c ∈ l ∨ ('a' ≤ c ∧ c ≤ 'z') := by
  simp only [pyLower, List.mem_map] at hc
  obtain ⟨d, hd, rfl⟩ := hc
  rcases pyLowerChar_self_or_lowercase d with h | h
  · rw [h]
    exact Or.inl hd
  · exact Or.inr h

/-- C7 counterexample: the claim "normalize_url is idempotent — applying
it twice gives the same result as applying it once" is false.  A `;` in
the last path segment is split off as parameters only on the second pass
(`http://a.com/x/;p/` → `http://a.com/x/;p` → `http://a.com/x;p`); an
empty-netloc URL whose path starts with `//` loses slashes on every pass
(`/////foo` → `///foo` → `/foo`); and `////[` normalizes to `//[`, on
which a second application raises ValueError instead of returning. -/
theorem claim_C7_counterexample :
    normalize_url "http://a.com/x/;p/".data = some "http://a.com/x/;p".data ∧
    normalize_url "http://a.com/x/;p".data = some "http://a.com/x;p".data ∧
    "http://a.com/x;p".data ≠ "http://a.com/x/;p".data ∧
    normalize_url "/////foo".data = some "///foo".data ∧
    normalize_url "///foo".data = some "/foo".data ∧
    "/foo".data ≠ "///foo".data ∧
    normalize_url "////[".data = some "//[".data ∧
    normalize_url "//[".data = none := by decide

/-- C7 (amended): `normalize_url` is idempotent on every URL that
contains no `;` and no square bracket and does not parse to an empty
netloc in front of a (slash-stripped) path starting with `//`: whenever
`normalize_url u` returns `v`, re-normalizing `v` returns `v` itself. -/
theorem claim_C7_amended (u v : Chars) (p : ParseResult)
    (hp : urlparse u = some p)
    (hsemi : (';' : Char) ∉ u)
    (hbr1 : ('[' : Char) ∉ u) (hbr2 : (']' : Char) ∉ u)
    (hbig : ¬(p.netloc = [] ∧ (rstripSlash p.path).take 2 = ['/', '/']))
    (hnv : normalize_url u = some v) :
    normalize_url v = some v := by
  cases hsp : urlsplit u with
  | none =>
    have h0 : urlparse u = none := by
      unfold urlparse
      rw [hsp]
    rw [h0] at hp
    exact absurd hp (by simp)
  | some s0 =>
    have hs0eq : s0 = ⟨(schemeSplitOf u).1, (netlocSplitOf u).1, (querySplitOf u).1,
        (querySplitOf u).2, (fragSplitOf u).2⟩ := urlsplit_some_eq u s0 hsp
    have hs0path : s0.path = (querySplitOf u).1 := by rw [hs0eq]
    have hpsemi : (';' : Char) ∉ s0.path := by
      rw [hs0path]
      intro hc
      exact hsemi (mem_path_raw u ';' hc)
    have hp2 : urlparse u = some ⟨s0.scheme, s0.netloc, s0.path, [], s0.query, s0.fragment⟩ :=
      urlparse_eq_of_no_semi u s0 hsp hpsemi
    have hpeq : p = ⟨s0.scheme, s0.netloc, s0.path, [], s0.query, s0.fragment⟩ :=
      Option.some.inj (hp.symm.trans hp2)
    have hps : p.scheme = (schemeSplitOf u).1 := by
      rw [hpeq]
      show s0.scheme = (schemeSplitOf u).1
      rw [hs0eq]
    have hpn : p.netloc = (netlocSplitOf u).1 := by
      rw [hpeq]
      show s0.netloc = (netlocSplitOf u).1
      rw [hs0eq]
    have hpp : p.path = (querySplitOf u).1 := by
      rw [hpeq]
      show s0.path = (querySplitOf u).1
      rw [hs0eq]
    have hppar : p.params = [] := by rw [hpeq]
    have hSfacts : pyLower (schemeSplitOf u).1 = (schemeSplitOf u).1 ∧
        ((schemeSplitOf u).1 = [] ∨
          ((∃ c t, (schemeSplitOf u).1 = c :: t ∧ c.isAlpha = true) ∧
            ((schemeSplitOf u).1).all isSchemeChar = true)) ∧
        (∀ c ∈ (schemeSplitOf u).1, isSchemeChar c = true) := by
      rcases splitScheme_spec (cleanedUrl u) with hrej | ⟨pre, post, -, -, hne, hsh, hall, hacc⟩
      · have h1 : (schemeSplitOf u).1 = [] := by
          unfold schemeSplitOf
          rw [hrej]
        rw [h1]
        refine ⟨rfl, Or.inl rfl, ?_⟩
        intro c hc
        exact absurd hc (List.not_mem_nil c)
      · have h1 : (schemeSplitOf u).1 = pyLower pre := by
          unfold schemeSplitOf
          rw [hacc]
        rw [h1]
        obtain ⟨c, t, hpre, hca⟩ := hsh
        have hlowall : ∀ x ∈ pyLower pre, isSchemeChar x = true := by
          intro x hx
          simp only [pyLower, List.mem_map] at hx
          obtain ⟨d, hd, rfl⟩ := hx
          rw [pyLowerChar_isSchemeChar]
          exact List.all_eq_true.mp hall d hd
        refine ⟨pyLower_idem pre, Or.inr ⟨⟨pyLowerChar c, pyLower t, by rw [hpre]; rfl, ?_⟩, ?_⟩, hlowall⟩
        · rw [pyLowerChar_isAlpha]
          exact hca
        · rw [List.all_eq_true]
          exact hlowall
    obtain ⟨hSlow, hSshape, hSchars⟩ := hSfacts
    obtain ⟨⟨tq, htq⟩, hqnot⟩ := querySplitOf_decomp u
    obtain ⟨⟨tf, htf⟩, hfnot⟩ := fragSplitOf_decomp u
    have hqr : (querySplitOf u).1 ++ (tq ++ tf) = (netlocSplitOf u).2 := by
      rw [← htf, ← htq, List.append_assoc]
    obtain ⟨ts, hts, -⟩ := rstripSlash_decomp (querySplitOf u).1
    have hsr : rstripSlash (querySplitOf u).1 ++ (ts ++ (tq ++ tf)) = (netlocSplitOf u).2 := by
      rw [← hqr, ← List.append_assoc, hts]
    have hraw : (schemeSplitOf u).1 = [] → (netlocSplitOf u).1 = [] →
        (rstripSlash (querySplitOf u).1 = [] ∨
          (splitScheme (rstripSlash (querySplitOf u).1) = ([], rstripSlash (querySplitOf u).1) ∧
            ∃ c t, rstripSlash (querySplitOf u).1 = c :: t ∧ 32 < c.toNat)) := by
      intro hS0 hNL0
      cases hrs : rstripSlash (querySplitOf u).1 with
      | nil => exact Or.inl rfl
      | cons c cs =>
        right
        rcases netlocSplitOf_spec u with ⟨-, -, -, hrest2⟩ | ⟨-, he2, -⟩
        · rcases hrest2 with h0 | ⟨d, t, hdt, hdelim⟩
          · exfalso
            have hq0 : (querySplitOf u).1 = [] := by
              rw [h0] at hqr
              exact (List.append_eq_nil.mp hqr).1
            rw [hq0] at hrs
            exact List.cons_ne_nil c cs hrs.symm
          · have hchead : some c = (netlocSplitOf u).2.head? := by
              rcases path_head u with h0 | hh
              · exfalso
                rw [h0] at hrs
                exact List.cons_ne_nil c cs hrs.symm
              · rcases rstripSlash_head (querySplitOf u).1 with h0 | hh2
                · exfalso
                  rw [h0] at hrs
                  exact List.cons_ne_nil c cs hrs.symm
                · rw [← hh, ← hh2, hrs]
                  rfl
            rw [hdt] at hchead
            have hcd : c = d := by simpa using hchead
            have hcq : c ∈ (querySplitOf u).1 :=
              mem_rstripSlash _ c (by rw [hrs]; exact List.mem_cons_self c cs)
            have hc7 : c = '/' := by
              rcases hdelim with h | h | h
              · rw [hcd, h]
              · exfalso
                rw [h] at hcd
                rw [hcd] at hcq
                exact hqnot hcq
              · exfalso
                rw [h] at hcd
                rw [hcd] at hcq
                apply hfnot
                rw [← htq]
                exact List.mem_append_left _ hcq
            rw [hc7]
            exact ⟨splitScheme_head_notalpha '/' cs (by decide) (by decide),
              '/', cs, rfl, by decide⟩
        · rcases splitScheme_spec (cleanedUrl u) with hrej | ⟨pre, post, -, -, hne, -, -, hacc⟩
          · have he3 : (schemeSplitOf u).2 = cleanedUrl u := by
              unfold schemeSplitOf
              rw [hrej]
            rw [hrs] at hsr
            rw [he2, he3] at hsr
            constructor
            · exact splitScheme_none_of_prefix (cleanedUrl u) _ (ts ++ (tq ++ tf)) hrej hsr
            · refine ⟨c, cs, rfl, ?_⟩
              apply cleanedUrl_head u c
              rw [← hsr]
              rfl
          · exfalso
            have h1 : (schemeSplitOf u).1 = pyLower pre := by
              unfold schemeSplitOf
              rw [hacc]
            rw [hS0] at h1
            exact hne ((pyLower_eq_nil pre).mp h1.symm)
    have hnorm2 : normalize_url u =
        some (urlunsplit (schemeSplitOf u).1 (pyLower (netlocSplitOf u).1)
          (pyLower (rstripSlash (querySplitOf u).1)) [] []) := by
      rw [normalize_of_parse u p hp, hps, hpn, hpp, hppar, urlunparse_no_params,
          pyLower_urlunsplit _ _ _ hSlow]
    have hveq : v = urlunsplit (schemeSplitOf u).1 (pyLower (netlocSplitOf u).1)
        (pyLower (rstripSlash (querySplitOf u).1)) [] [] :=
      Option.some.inj (hnv.symm.trans hnorm2)
    rw [hveq]
    apply reparse_fixed
    · exact hSlow
    · exact hSshape
    · exact pyLower_idem _
    · intro c hc hor
      rcases mem_pyLower_cases _ c hc with hm | hlz
      · rcases netlocSplitOf_spec u with ⟨-, -, hd, -⟩ | ⟨hnil, -, -⟩
        · exact hd c hm hor
        · rw [hnil] at hm
          exact absurd hm (List.not_mem_nil c)
      · rcases hor with rfl | rfl | rfl <;> revert hlz <;> decide
    · intro hc
      rcases mem_pyLower_cases _ _ hc with hm | hlz
      · exact hbr1 (mem_cleanedUrl u '[' (mem_netloc_cleaned u '[' hm))
      · revert hlz
        decide
    · intro hc
      rcases mem_pyLower_cases _ _ hc with hm | hlz
      · exact hbr2 (mem_cleanedUrl u ']' (mem_netloc_cleaned u ']' hm))
      · revert hlz
        decide
    · intro c hc
      rcases mem_pyLower_cases _ c hc with hm | hlz
      · exact urlsplit_no_bad u s0 hsp c hm
      · by_contra hbad2
        rw [Bool.not_eq_false] at hbad2
        have hgt := isBadNFKCChar_gt127 c hbad2
        have h2 : c.val ≤ ('z' : Char).val := hlz.2
        rw [UInt32.le_def, BitVec.le_def] at h2
        have e1 : c.toNat = c.val.toBitVec.toNat := rfl
        have e2 : ('z' : Char).val.toBitVec.toNat = 122 := rfl
        omega
    · exact pyLower_idem _
    · intro c hc hor
      rcases mem_pyLower_cases _ c hc with hm | hlz
      · have hm2 : c ∈ (querySplitOf u).1 := mem_rstripSlash _ c hm
        rcases hor with rfl | rfl | rfl
        · apply hfnot
          rw [← htq]
          exact List.mem_append_left _ hm2
        · exact hqnot hm2
        · exact hsemi (mem_path_raw u ';' hm2)
      · rcases hor with rfl | rfl | rfl <;> revert hlz <;> decide
    · intro hcon
      rw [pyLower_getLast] at hcon
      obtain ⟨d, hd1, hd2⟩ := Option.map_eq_some'.mp hcon
      rw [(pyLowerChar_eq_nonletter d '/' (by decide) (by decide)).mp hd2] at hd1
      exact rstripSlash_getLast _ hd1
    · intro hS0 hNL0
      have hNL0' : (netlocSplitOf u).1 = [] := (pyLower_eq_nil _).mp hNL0
      rcases hraw hS0 hNL0' with h0 | ⟨hrda, -⟩
      · rw [h0]
        decide
      · exact splitScheme_none_pyLower _ hrda
    · intro hS0 hNL0
      have hNL0' : (netlocSplitOf u).1 = [] := (pyLower_eq_nil _).mp hNL0
      rcases hraw hS0 hNL0' with h0 | ⟨-, c, t, hct, hgt⟩
      · left
        rw [h0]
        rfl
      · right
        refine ⟨pyLowerChar c, pyLower t, by rw [hct]; rfl, ?_⟩
        by_contra hle
        rw [Nat.not_lt] at hle
        have h32 := (pyLowerChar_toNat_le32 c).mp hle
        omega
    · intro c hc
      exact isSchemeChar_not_unsafe c (hSchars c hc)
    · intro c hc hbad
      rcases mem_pyLower_cases _ c hc with hm | hlz
      · exact not_unsafe_mem_cleanedUrl u c (mem_netloc_cleaned u c hm) hbad
      · rcases hbad with rfl | rfl | rfl <;> revert hlz <;> decide
    · intro c hc hbad
      rcases mem_pyLower_cases _ c hc with hm | hlz
      · exact not_unsafe_mem_cleanedUrl u c
          (mem_rest2_cleaned u c (mem_path_rest2 u c (mem_rstripSlash _ c hm))) hbad
      · rcases hbad with rfl | rfl | rfl <;> revert hlz <;> decide
    · intro hc
      apply hbig
      constructor
      · rw [hpn]
        exact (pyLower_eq_nil _).mp hc.1
      · rw [hpp]
        exact (pyLower_take_pair _).mp hc.2

/-- Witness for C7 (amended) on a concrete URL with mixed case, a
trailing slash, a query and a fragment. -/
theorem claim_C7_amended_witness :
    normalize_url "HTTP://Example.com/Path/?q=1#f".data =
      some "http://example.com/path".data ∧
    normalize_url "http://example.com/path".data =
      some "http://example.com/path".data := by
  refine ⟨by decide, ?_⟩
  exact claim_C7_amended "HTTP://Example.com/Path/?q=1#f".data
    "http://example.com/path".data
    ⟨"http".data, "Example.com".data, "/Path/".data, [], "q=1".data, "f".data⟩
    (by decide) (by decide) (by decide) (by decide) (by decide) (by decide)

/-! ### C9: every submitted probe URL is the normalizer's output -/

theorem urlunparse_eq (s nl pa par q f : Chars) :
    urlunparse ⟨s, nl, pa, par, q, f⟩ =
      urlunsplit s nl (if par ≠ [] then pa ++ ';' :: par else pa) q f := rfl

theorem mem_takeWhile_list (p : Char → Bool) (l : Chars) (c : Char)
    (h : c ∈ l.takeWhile p) : c ∈ l := by
  induction l with
  | nil => simp at h
  | cons d ds ih =>
    by_cases hp : p d
    · rw [List.takeWhile_cons_of_pos hp] at h
      rcases List.mem_cons.mp h with h1 | h1
      · rw [h1]
        exact List.mem_cons_self d ds
      · exact List.mem_cons_of_mem _ (ih h1)
    · rw [List.takeWhile_cons_of_neg hp] at h
      exact absurd h (List.not_mem_nil c)

theorem mem_splitparams_fst (pa : Chars) (c : Char) (h : c ∈ (splitparams pa).1) :
    c ∈ pa := by
  unfold splitparams at h
  by_cases hs : ('/' : Char) ∈ pa
  · rw [if_pos hs] at h
    have h2 : c ∈ (match splitAtFirst ';' ((List.takeWhile (fun x => decide (x ≠ '/')) pa.reverse).reverse) with
      | none => (pa, ([] : Chars))
      | some (a, b) =>
        ((List.dropWhile (fun x => decide (x ≠ '/')) pa.reverse).reverse ++ a, b)).1 := h
    cases hsp : splitAtFirst ';' ((List.takeWhile (fun x => decide (x ≠ '/')) pa.reverse).reverse) with
    | none =>
      rw [hsp] at h2
      exact h2
    | some ab =>
      obtain ⟨a, b⟩ := ab
      rw [hsp] at h2
      have h3 : c ∈ (List.dropWhile (fun x => decide (x ≠ '/')) pa.reverse).reverse ++ a := h2
      rcases List.mem_append.mp h3 with h4 | h4
      · rw [List.mem_reverse] at h4
        have h5 := mem_dropWhile _ _ _ h4
        rwa [List.mem_reverse] at h5
      · obtain ⟨hseg, -⟩ := splitAtFirst_eq_some ';' _ a b hsp
        have h5 : c ∈ (List.takeWhile (fun x => decide (x ≠ '/')) pa.reverse).reverse := by
          rw [hseg]
          exact List.mem_append_left _ h4
        rw [List.mem_reverse] at h5
        have h6 := mem_takeWhile_list _ _ _ h5
        rwa [List.mem_reverse] at h6
  · rw [if_neg hs] at h
    cases hsp : splitAtFirst ';' pa with
    | none =>
      rw [hsp] at h
      exact h
    | some ab =>
      obtain ⟨a, b⟩ := ab
      rw [hsp] at h
      have h3 : c ∈ a := h
      obtain ⟨hseg, -⟩ := splitAtFirst_eq_some ';' _ a b hsp
      rw [hseg]
      exact List.mem_append_left _ h3

theorem mem_splitparams_snd (pa : Chars) (c : Char) (h : c ∈ (splitparams pa).2) :
    c ∈ pa := by
  unfold splitparams at h
  by_cases hs : ('/' : Char) ∈ pa
  · rw [if_pos hs] at h
    have h2 : c ∈ (match splitAtFirst ';' ((List.takeWhile (fun x => decide (x ≠ '/')) pa.reverse).reverse) with
      | none => (pa, ([] : Chars))
      | some (a, b) =>
        ((List.dropWhile (fun x => decide (x ≠ '/')) pa.reverse).reverse ++ a, b)).2 := h
    cases hsp : splitAtFirst ';' ((List.takeWhile (fun x => decide (x ≠ '/')) pa.reverse).reverse) with
    | none =>
      rw [hsp] at h2
      exact absurd h2 (List.not_mem_nil c)
    | some ab =>
      obtain ⟨a, b⟩ := ab
      rw [hsp] at h2
      have h3 : c ∈ b := h2
      obtain ⟨hseg, -⟩ := splitAtFirst_eq_some ';' _ a b hsp
      have h5 : c ∈ (List.takeWhile (fun x => decide (x ≠ '/')) pa.reverse).reverse := by
        rw [hseg]
        exact List.mem_append_right _ (List.mem_cons_of_mem _ h3)
      rw [List.mem_reverse] at h5
      have h6 := mem_takeWhile_list _ _ _ h5
      rwa [List.mem_reverse] at h6
  · rw [if_neg hs] at h
    cases hsp : splitAtFirst ';' pa with
    | none =>
      rw [hsp] at h
      exact absurd h (List.not_mem_nil c)
    | some ab =>
      obtain ⟨a, b⟩ := ab
      rw [hsp] at h
      have h3 : c ∈ b := h
      obtain ⟨hseg, -⟩ := splitAtFirst_eq_some ';' _ a b hsp
      rw [hseg]
      exact List.mem_append_right _ (List.mem_cons_of_mem _ h3)

theorem scheme_chars (u : Chars) (c : Char) (h : c ∈ (schemeSplitOf u).1) :
    isSchemeChar c = true := by
  rcases splitScheme_spec (cleanedUrl u) with hrej | ⟨pre, post, -, -, -, -, hall, hacc⟩
  · have h1 : (schemeSplitOf u).1 = [] := by
      unfold schemeSplitOf
      rw [hrej]
    rw [h1] at h
    exact absurd h (List.not_mem_nil c)
  · have h1 : (schemeSplitOf u).1 = pyLower pre := by
      unfold schemeSplitOf
      rw [hacc]
    rw [h1] at h
    simp only [pyLower, List.mem_map] at h
    obtain ⟨d, hd, rfl⟩ := h
    rw [pyLowerChar_isSchemeChar]
    exact List.all_eq_true.mp hall d hd

theorem netloc_chars (u : Chars) (c : Char) (h : c ∈ (netlocSplitOf u).1) :
    ¬(c = '/' ∨ c = '?' ∨ c = '#') := by
  rcases netlocSplitOf_spec u with ⟨-, -, hd, -⟩ | ⟨hnil, -, -⟩
  · exact hd c h
  · rw [hnil] at h
    exact absurd h (List.not_mem_nil c)

theorem path_no_special (u : Chars) (c : Char) (h : c ∈ (querySplitOf u).1) :
    ¬(c = '#' ∨ c = '?') := by
  obtain ⟨⟨tq, htq⟩, hqnot⟩ := querySplitOf_decomp u
  obtain ⟨-, hfnot⟩ := fragSplitOf_decomp u
  rintro (rfl | rfl)
  · apply hfnot
    rw [← htq]
    exact List.mem_append_left _ h
  · exact hqnot h

/-- `normalize_url`'s output is lower-cased, contains no fragment or
query delimiter, and is the rebuild of the parse with the path's
trailing slashes stripped. -/
theorem normalize_shape (u n : Chars) (h : normalize_url u = some n) :
    pyLower n = n ∧ ('#' : Char) ∉ n ∧ ('?' : Char) ∉ n ∧
      ∃ p, urlparse u = some p ∧
        n = pyLower (urlunparse ⟨p.scheme, p.netloc, rstripSlash p.path, p.params, [], []⟩) := by
  cases hup : urlparse u with
  | none =>
    unfold normalize_url at h
    rw [hup] at h
    exact absurd h (by simp)
  | some p =>
    have hn : n = pyLower (urlunparse ⟨p.scheme, p.netloc, rstripSlash p.path, p.params, [], []⟩) := by
      rw [normalize_of_parse u p hup] at h
      exact (Option.some.inj h).symm
    cases hsp : urlsplit u with
    | none =>
      exfalso
      have h0 : urlparse u = none := by
        unfold urlparse
        rw [hsp]
      rw [h0] at hup
      exact absurd hup (by simp)
    | some s0 =>
      have hs0eq := urlsplit_some_eq u s0 hsp
      have hs0sch : s0.scheme = (schemeSplitOf u).1 := by rw [hs0eq]
      have hs0nl : s0.netloc = (netlocSplitOf u).1 := by rw [hs0eq]
      have hs0pa : s0.path = (querySplitOf u).1 := by rw [hs0eq]
      have hup2 := hup
      unfold urlparse at hup2
      rw [hsp] at hup2
      simp only [] at hup2
      have hfield : p.scheme = s0.scheme ∧ p.netloc = s0.netloc ∧
          (∀ c ∈ p.path, c ∈ s0.path) ∧ (∀ c ∈ p.params, c ∈ s0.path) := by
        by_cases hgate : s0.scheme ∈ uses_params ∧ (';' : Char) ∈ s0.path
        · rw [if_pos hgate] at hup2
          have hpeq : p = ⟨s0.scheme, s0.netloc, (splitparams s0.path).1,
              (splitparams s0.path).2, s0.query, s0.fragment⟩ := (Option.some.inj hup2).symm
          rw [hpeq]
          exact ⟨rfl, rfl, fun c hc => mem_splitparams_fst _ c hc,
            fun c hc => mem_splitparams_snd _ c hc⟩
        · rw [if_neg hgate] at hup2
          have hpeq : p = ⟨s0.scheme, s0.netloc, s0.path, [], s0.query, s0.fragment⟩ :=
            (Option.some.inj hup2).symm
          rw [hpeq]
          exact ⟨rfl, rfl, fun c hc => hc, fun c hc => absurd hc (List.not_mem_nil c)⟩
      obtain ⟨hpsch, hpnl, hppa, hppar⟩ := hfield
      have hmem : ∀ c : Char, c ∈ n → (c = ':' ∨ c = '/' ∨ c = ';') ∨
          c ∈ (schemeSplitOf u).1 ∨ c ∈ (netlocSplitOf u).1 ∨ c ∈ (querySplitOf u).1 ∨
          ('a' ≤ c ∧ c ≤ 'z') := by
        intro c hc
        rw [hn] at hc
        rcases mem_pyLower_cases _ c hc with hm | hlz
        · rw [urlunparse_eq] at hm
          rcases mem_urlunsplit _ _ _ c hm with h1 | h1 | h1 | h1 | h1
          · right
            left
            rw [hpsch, hs0sch] at h1
            exact h1
          · right
            right
            left
            rw [hpnl, hs0nl] at h1
            exact h1
          · by_cases hpar : p.params ≠ []
            · rw [if_pos hpar] at h1
              rcases List.mem_append.mp h1 with h2 | h2
              · right
                right
                right
                left
                have h3 := hppa c (mem_rstripSlash _ c h2)
                rwa [hs0pa] at h3
              · rcases List.mem_cons.mp h2 with h3 | h3
                · left
                  right
                  right
                  exact h3
                · right
                  right
                  right
                  left
                  have h4 := hppar c h3
                  rwa [hs0pa] at h4
            · rw [if_neg hpar] at h1
              right
              right
              right
              left
              have h3 := hppa c (mem_rstripSlash _ c h1)
              rwa [hs0pa] at h3
          · left
            left
            exact h1
          · left
            right
            left
            exact h1
        · right
          right
          right
          right
          exact hlz
      refine ⟨by rw [hn]; exact pyLower_idem _, ?_, ?_, p, rfl, hn⟩
      · intro hc
        rcases hmem '#' hc with (h1 | h1 | h1) | h1 | h1 | h1 | h1
        · exact absurd h1 (by decide)
        · exact absurd h1 (by decide)
        · exact absurd h1 (by decide)
        · exact absurd (scheme_chars u '#' h1) (by decide)
        · exact netloc_chars u '#' h1 (Or.inr (Or.inr rfl))
        · exact path_no_special u '#' h1 (Or.inl rfl)
        · exact absurd h1 (by decide)
      · intro hc
        rcases hmem '?' hc with (h1 | h1 | h1) | h1 | h1 | h1 | h1
        · exact absurd h1 (by decide)
        · exact absurd h1 (by decide)
        · exact absurd h1 (by decide)
        · exact absurd (scheme_chars u '?' h1) (by decide)
        · exact netloc_chars u '?' h1 (Or.inr (Or.inl rfl))
        · exact path_no_special u '?' h1 (Or.inr rfl)
        · exact absurd h1 (by decide)

theorem process_discovery_submitted (s : CrawlState) (d : Discovery) (pr : Chars × Chars)
    (h : pr ∈ (process_discovery s d).submitted) :
    pr ∈ s.submitted ∨ normalize_url (Discovery.url d) = some pr.1 := by
  cases d with
  | pageLink link lf =>
    simp only [process_discovery] at h
    cases hn : normalize_url link with
    | none =>
      rw [hn] at h
      exact Or.inl h
    | some nn =>
      rw [hn] at h
      simp only [] at h
      by_cases h1 : is_valid_http_url link = false
      · rw [if_pos h1] at h
        exact Or.inl h
      · rw [if_neg h1] at h
        by_cases h2 : nn ∈ s.visited_links
        · rw [if_pos h2] at h
          exact Or.inl h
        · rw [if_neg h2] at h
          by_cases h3 : hasAssetExtension nn = true
          · rw [if_pos h3] at h
            simp only [List.mem_append, List.mem_singleton] at h
            rcases h with h | h
            · exact Or.inl h
            · right
              rw [h]
              exact hn
          · rw [if_neg h3] at h
            exact Or.inl h
  | innerLink inner org =>
    simp only [process_discovery] at h
    by_cases h1 : is_valid_http_url inner = false
    · rw [if_pos h1] at h
      exact Or.inl h
    · rw [if_neg h1] at h
      cases hn : normalize_url inner with
      | none =>
        rw [hn] at h
        exact Or.inl h
      | some nn =>
        rw [hn] at h
        simp only [] at h
        by_cases h2 : nn ∈ s.visited_links
        · rw [if_pos h2] at h
          exact Or.inl h
        · rw [if_neg h2] at h
          simp only [List.mem_append, List.mem_singleton] at h
          rcases h with h | h
          · exact Or.inl h
          · right
            rw [h]
            exact hn

theorem run_discoveries_submitted_src (ds : List Discovery) :
    ∀ s pr, pr ∈ (run_discoveries s ds).submitted →
      pr ∈ s.submitted ∨ ∃ d ∈ ds, normalize_url (Discovery.url d) = some pr.1 := by
  induction ds with
  | nil => exact fun s pr h => Or.inl h
  | cons d ds ih =>
    intro s pr h
    rcases ih (process_discovery s d) pr h with h1 | ⟨d2, hd2, hnd⟩
    · rcases process_discovery_submitted s d pr h1 with h2 | h2
      · exact Or.inl h2
      · exact Or.inr ⟨d, List.mem_cons_self d ds, h2⟩
    · exact Or.inr ⟨d2, List.mem_cons_of_mem d hd2, hnd⟩

/-- Claim C9: every scheduled validation probe targets the normalized
form of some discovered URL — each pair submitted to `check_link` over
any discovery schedule carries `normalize_url` of the URL as found, a
string that is lower-cased, has no `#` or `?` (fragment and query
stripped), and is the rebuild of the parse with the path's trailing
slashes removed. -/
theorem claim_C9_probes_normalized (ds : List Discovery) (n o : Chars)
    (h : (n, o) ∈ (run_discoveries crawlInit ds).submitted) :
    ∃ d ∈ ds, normalize_url (Discovery.url d) = some n ∧
      pyLower n = n ∧ ('#' : Char) ∉ n ∧ ('?' : Char) ∉ n ∧
      ∃ p, urlparse (Discovery.url d) = some p ∧
        n = pyLower (urlunparse ⟨p.scheme, p.netloc, rstripSlash p.path, p.params, [], []⟩) := by
  rcases run_discoveries_submitted_src ds crawlInit (n, o) h with h1 | ⟨d, hd, hnd⟩
  · exact absurd h1 (List.not_mem_nil _)
  · obtain ⟨hl, hh, hq, p, hp, hn⟩ := normalize_shape (Discovery.url d) n hnd
    exact ⟨d, hd, hnd, hl, hh, hq, p, hp, hn⟩

/-- Witness for C9 on a concrete schedule: the inner link
`HTTP://a.com/x/?q=1#f` is probed as `http://a.com/x`. -/
theorem claim_C9_witness :
    ("http://a.com/x".data, "http://a.com".data) ∈
      (run_discoveries crawlInit
        [Discovery.innerLink "HTTP://a.com/x/?q=1#f".data "http://a.com".data]).submitted ∧
    ∃ d ∈ [Discovery.innerLink "HTTP://a.com/x/?q=1#f".data "http://a.com".data],
      normalize_url (Discovery.url d) = some "http://a.com/x".data ∧
      pyLower "http://a.com/x".data = "http://a.com/x".data ∧
      ('#' : Char) ∉ "http://a.com/x".data ∧ ('?' : Char) ∉ "http://a.com/x".data ∧
      ∃ p, urlparse (Discovery.url d) = some p ∧
        "http://a.com/x".data =
          pyLower (urlunparse ⟨p.scheme, p.netloc, rstripSlash p.path, p.params, [], []⟩) := by
  refine ⟨by decide, ?_⟩
  exact claim_C9_probes_normalized _ "http://a.com/x".data "http://a.com".data (by decide)
